import Mathlib

/-!
Verification of the structured-random phase-retrieval operator family
(`deepinv/physics/phase_retrieval.py`).

Tensors are embedded as complex-valued index functions with explicit
channel/height/width extents; machine floating point is idealised as exact
complex arithmetic, and random draws are passed in explicitly as data.
-/

namespace PhaseRetrievalSpec

open Finset Complex

noncomputable section

/-- A complex image tensor with explicit channel/height/width extents.
The index function is total; entries outside the extents are irrelevant junk
(every operation and inner product below reads only indices inside the
extents).  A leading batch axis is inert for all the operations modelled here
(they act entrywise or along the trailing spatial axes), so it is omitted:
`x.shape` plays the role of `x.shape[1:]` in the source. -/
structure Tensor3 where
  C : ℕ
  H : ℕ
  W : ℕ
  data : ℕ → ℕ → ℕ → ℂ

/-- The shape tuple `(C, H, W)` of a tensor. -/
def Tensor3.shape (x : Tensor3) : ℕ × ℕ × ℕ := (x.C, x.H, x.W)

/-- Equality in the sense of `torch.equal`: same shape and identical entries
inside the shape. -/
def Tensor3.TorchEq (a b : Tensor3) : Prop :=
  a.C = b.C ∧ a.H = b.H ∧ a.W = b.W ∧
    ∀ c < b.C, ∀ i < b.H, ∀ j < b.W, a.data c i j = b.data c i j

/-- The complex inner product `⟨a, b⟩ = ∑ conj(a) * b` over the entries of the
given shape (conjugate-linear in the first argument, as in `torch.vdot`). -/
def innerProd (C H W : ℕ) (a b : Tensor3) : ℂ :=
  ∑ c ∈ range C, ∑ i ∈ range H, ∑ j ∈ range W,
    (starRingEnd ℂ) (a.data c i j) * b.data c i j

/-- Source `padding` (line 352): `torch.nn.ZeroPad2d((left, right, top, bottom))`,
which pads the last axis by `left`/`right` and the second-to-last axis by
`top`/`bottom` with zeros. -/
def padding (left right top bottom : ℕ) (x : Tensor3) : Tensor3 :=
  ⟨x.C, top + x.H + bottom, left + x.W + right, fun c i j =>
    if top ≤ i ∧ i < top + x.H ∧ left ≤ j ∧ j < left + x.W then
      x.data c (i - top) (j - left)
    else 0⟩

/-- Source `trimming` (lines 356-365): slices rows `[top:]` (when `bottom = 0`)
or `[top:-bottom]`, then columns `[left:]` (when `right = 0`) or
`[left:-right]`.  Both branches are kept to mirror the source. -/
def trimming (left right top bottom : ℕ) (x : Tensor3) : Tensor3 :=
  let x1 : Tensor3 :=
    if bottom = 0 then ⟨x.C, x.H - top, x.W, fun c i j => x.data c (i + top) j⟩
    else ⟨x.C, x.H - top - bottom, x.W, fun c i j => x.data c (i + top) j⟩
  if right = 0 then ⟨x1.C, x1.H, x1.W - left, fun c i j => x1.data c i (j + left)⟩
  else ⟨x1.C, x1.H, x1.W - left - right, fun c i j => x1.data c i (j + left)⟩

/-- Entrywise product `diagonal * x` (`torch` broadcasting with equal shapes in
every constructed use); the result carries `x`'s shape. -/
def diagMul (d x : Tensor3) : Tensor3 :=
  ⟨x.C, x.H, x.W, fun c i j => d.data c i j * x.data c i j⟩

/-- Entrywise complex conjugate, `torch.conj`. -/
def conjT (d : Tensor3) : Tensor3 :=
  ⟨d.C, d.H, d.W, fun c i j => (starRingEnd ℂ) (d.data c i j)⟩

/-- The all-zero empty tensor, used as the out-of-range default for list
indexing (constructed operators never index out of range). -/
def zeroT : Tensor3 := ⟨0, 0, 0, fun _ _ _ => 0⟩

/-- Size-`N` orthonormal DFT kernel: entry `(u, i)` of the matrix of
`torch.fft.fft` with `norm="ortho"`, namely `exp(-2πi·u·i/N)/√N`. -/
def fourierKernel (N u i : ℕ) : ℂ :=
  Complex.exp ((-(2 * Real.pi * u * i / N) : ℝ) * Complex.I) / (Real.sqrt N : ℝ)

/-- Size-`N` orthonormal inverse DFT kernel: entry `(i, u)` of the matrix of
`torch.fft.ifft` with `norm="ortho"`, namely `exp(2πi·u·i/N)/√N`. -/
def fourierKernelInv (N i u : ℕ) : ℂ :=
  Complex.exp (((2 * Real.pi * u * i / N) : ℝ) * Complex.I) / (Real.sqrt N : ℝ)

/-- The orthonormal scaling of the DCT-II (`scipy.fft.dct` with
`norm="ortho"`): `√(1/N)` for row `0` and `√(2/N)` otherwise. -/
def dctScale (N k : ℕ) : ℝ :=
  if k = 0 then Real.sqrt (1 / N) else Real.sqrt (2 / N)

/-- Size-`N` orthonormal DCT-II kernel: entry `(k, n)` of the matrix of
`scipy.fft.dct(·, norm="ortho")`, namely `s(k)·cos(π·k·(2n+1)/(2N))`. -/
def dctKernel (N k n : ℕ) : ℂ :=
  ((dctScale N k * Real.cos (Real.pi * k * (2 * n + 1) / (2 * N)) : ℝ) : ℂ)

/-- Size-`N` orthonormal inverse DCT kernel: `scipy.fft.idct(·, norm="ortho")`
is the inverse of the orthonormal DCT-II, whose matrix is the transpose of the
DCT-II matrix. -/
def dctKernelInv (N n k : ℕ) : ℂ := dctKernel N k n

/-- A transform acting separably along the last two axes with the 1-D kernel
family `K` (first argument: axis length): output entry `(c, u, v)` is
`∑ i ∑ j K H u i · K W v j · x c i j`.  Both `torch.fft.fft2` and the
axis-by-axis `dct`/`idct` of the source have this form. -/
def sepTransform (K : ℕ → ℕ → ℕ → ℂ) (x : Tensor3) : Tensor3 :=
  ⟨x.C, x.H, x.W, fun c u v =>
    ∑ i ∈ range x.H, ∑ j ∈ range x.W, K x.H u i * K x.W v j * x.data c i j⟩

/-- Source transform choice `partial(torch.fft.fft2, norm="ortho")` (line 404):
the 2-D orthonormal DFT, i.e. the 1-D orthonormal DFT applied along each of the
last two axes. -/
def fft2 (x : Tensor3) : Tensor3 := sepTransform fourierKernel x

/-- Source transform choice `partial(torch.fft.ifft2, norm="ortho")`
(line 405): the 2-D orthonormal inverse DFT. -/
def ifft2 (x : Tensor3) : Tensor3 := sepTransform fourierKernelInv x

/-- Source `dct2` (lines 13-18): `dct(dct(x, axis=-1, norm='ortho'), axis=-2,
norm='ortho')`, which by separability equals the single double sum below. -/
def dct2 (x : Tensor3) : Tensor3 := sepTransform dctKernel x

/-- Source `idct2` (lines 20-25): `idct(idct(x, axis=-2, norm='ortho'),
axis=-1, norm='ortho')`. -/
def idct2 (x : Tensor3) : Tensor3 := sepTransform dctKernelInv x

/-- Source transform dispatch (lines 403-410): `"fft"` and `"dct"` yield the
matched pairs above; any other string raises
`ValueError(f"Unimplemented transform: ...")`. -/
def selectTransform (t : String) :
    Except String ((Tensor3 → Tensor3) × (Tensor3 → Tensor3)) :=
  if t = "fft" then .ok (fft2, ifft2)
  else if t = "dct" then .ok (dct2, idct2)
  else .error ("ValueError: Unimplemented transform: " ++ t)

/-- Modelled from the spec: `compare` is imported from
`deepinv.optim.phase_retrieval`, which is not under `src/`.  Per the spec it
reports the ordering of one axis pair as one of the strings used by the
constructor. -/
def compare (a b : ℕ) : String :=
  if a < b then "<" else if a = b then "=" else ">"

/-- Modelled from the spec: `merge_order` is imported from
`deepinv.optim.phase_retrieval`, which is not under `src/`.  Per the spec,
matching orders merge, `"="` is compatible with either direction, and a
mismatched per-axis ordering (taller but narrower) is rejected by the
constructor; the sentinel `"!"` stands for that incompatible case. -/
def merge_order (o1 o2 : String) : String :=
  if o1 = o2 then o1
  else if o1 = "=" then o2
  else if o2 = "=" then o1
  else "!"

/-- The constructor arguments of `StructuredRandomPhaseRetrieval` together
with the random diagonal draws made at construction time (the diagonals are
fixed draws held for the operator's lifetime, so they are data here). -/
structure SRConfig where
  inC : ℕ
  inH : ℕ
  inW : ℕ
  outC : ℕ
  outH : ℕ
  outW : ℕ
  nLayers : ℚ
  transform : String
  diagonals : List Tensor3

/-- Python `n_layers % 1` (the fractional part, also for negative values). -/
def fracPart (q : ℚ) : ℚ := q - (⌊q⌋ : ℚ)

/-- `math.floor(n_layers)` as a loop bound: `range` of a negative number is
empty, which `Int.toNat` reproduces. -/
def numLayers (cfg : SRConfig) : ℕ := (⌊cfg.nLayers⌋).toNat

/-- Source line 345: `math.ceil(abs(input_shape[1] - output_shape[1])/2)`. -/
def changeTop (cfg : SRConfig) : ℕ :=
  (((cfg.inH : ℤ) - (cfg.outH : ℤ)).natAbs + 1) / 2

/-- Source line 346: `math.floor(abs(input_shape[1] - output_shape[1])/2)`. -/
def changeBottom (cfg : SRConfig) : ℕ :=
  ((cfg.inH : ℤ) - (cfg.outH : ℤ)).natAbs / 2

/-- Source line 347: `math.ceil(abs(input_shape[2] - output_shape[2])/2)`. -/
def changeLeft (cfg : SRConfig) : ℕ :=
  (((cfg.inW : ℤ) - (cfg.outW : ℤ)).natAbs + 1) / 2

/-- Source line 348: `math.floor(abs(input_shape[2] - output_shape[2])/2)`. -/
def changeRight (cfg : SRConfig) : ℕ :=
  ((cfg.inW : ℤ) - (cfg.outW : ℤ)).natAbs / 2

/-- Source lines 331-343: derive the sampling mode from the per-axis
comparisons of input and output shape, raising `ValueError` when the merged
order is incompatible. -/
def srMode (cfg : SRConfig) : Except String String :=
  let order := merge_order (compare cfg.inH cfg.outH) (compare cfg.inW cfg.outW)
  if order = "<" then .ok "oversampling"
  else if order = ">" then .ok "undersampling"
  else if order = "=" then .ok "equisampling"
  else .error "ValueError: Does not support different sampling schemes on height and width."

/-- The forward closure `A` (source lines 412-428): assert the input shape,
zero-pad when oversampling, apply the transform once for a fractional half
layer, then for each layer index `i` in increasing order multiply by
`diagonals[i]` and apply the transform, and finally trim when undersampling. -/
def srForward (cfg : SRConfig) (mode : String) (T : Tensor3 → Tensor3)
    (x : Tensor3) : Except String Tensor3 :=
  if x.shape ≠ (cfg.inC, cfg.inH, cfg.inW) then
    .error "AssertionError: x does not have the correct shape"
  else
    let x1 := if mode = "oversampling" then
      padding (changeLeft cfg) (changeRight cfg) (changeTop cfg) (changeBottom cfg) x else x
    let x2 := if fracPart cfg.nLayers = 1 / 2 then T x1 else x1
    let x3 := (List.range (numLayers cfg)).foldl
      (fun a i => T (diagMul (cfg.diagonals.getD i zeroT) a)) x2
    let x4 := if mode = "undersampling" then
      trimming (changeLeft cfg) (changeRight cfg) (changeTop cfg) (changeBottom cfg) x3 else x3
    .ok x4

/-- The adjoint closure `A_adjoint` (source lines 430-446): assert the output
shape, pad when undersampling, then for each `i` in increasing order apply the
inverse transform and multiply by `conj(diagonals[-i-1])` (Python negative
indexing from the end of the list), apply the inverse transform once for a
fractional half layer, and finally trim when oversampling. -/
def srAdjoint (cfg : SRConfig) (mode : String) (Tinv : Tensor3 → Tensor3)
    (y : Tensor3) : Except String Tensor3 :=
  if y.shape ≠ (cfg.outC, cfg.outH, cfg.outW) then
    .error "AssertionError: y does not have the correct shape"
  else
    let y1 := if mode = "undersampling" then
      padding (changeLeft cfg) (changeRight cfg) (changeTop cfg) (changeBottom cfg) y else y
    let y2 := (List.range (numLayers cfg)).foldl
      (fun a i => diagMul (conjT (cfg.diagonals.getD (cfg.diagonals.length - 1 - i) zeroT)) (Tinv a)) y1
    let y3 := if fracPart cfg.nLayers = 1 / 2 then Tinv y2 else y2
    let y4 := if mode = "oversampling" then
      trimming (changeLeft cfg) (changeRight cfg) (changeTop cfg) (changeBottom cfg) y3 else y3
    .ok y4

/-- The constructor checks of `StructuredRandomPhaseRetrieval.__init__` in
source order: mode derivation (lines 331-343), the `n_layers` assertion
(line 373), transform dispatch (lines 403-410); on success it returns the
`A` and `A_adjoint` closures built at lines 412-446. -/
def buildOperator (cfg : SRConfig) :
    Except String ((Tensor3 → Except String Tensor3) × (Tensor3 → Except String Tensor3)) := do
  let mode ← srMode cfg
  if ¬ (fracPart cfg.nLayers = 0 ∨ fracPart cfg.nLayers = 1 / 2) then
    .error "AssertionError: n_layers must be an integer or an integer plus 0.5"
  else
    match selectTransform cfg.transform with
    | .error e => .error e
    | .ok p => .ok (srForward cfg mode p.1, srAdjoint cfg mode p.2)

/-- Modelled from the spec (§4.4, forward pass): pad to the middle shape when
oversampling, apply the transform once when a half layer exists, then for each
layer in increasing index order multiply by that layer's diagonal and apply
the transform, and trim to the output shape when undersampling.  The layer
loop is rendered as a left fold over the diagonal list itself (layer `i` uses
diagonal `i`). -/
def specForwardPass (cfg : SRConfig) (mode : String) (T : Tensor3 → Tensor3)
    (x : Tensor3) : Tensor3 :=
  let xPad := if mode = "oversampling" then
    padding (changeLeft cfg) (changeRight cfg) (changeTop cfg) (changeBottom cfg) x else x
  let xHalf := if fracPart cfg.nLayers = 1 / 2 then T xPad else xPad
  let xLoop := cfg.diagonals.foldl (fun a d => T (diagMul d a)) xHalf
  if mode = "undersampling" then
    trimming (changeLeft cfg) (changeRight cfg) (changeTop cfg) (changeBottom cfg) xLoop
  else xLoop

/-- The diagonal-sampling phase of the constructor (source lines 384-401).
`draw i mode` stands for the value of the `i`-th call of `generate_diagonal`
with the given mode string (the random draws are passed in explicitly), and
`modes` is `diagonal_mode` after the string-to-list expansion of line 387.
In the `shared_weights` branch the source evaluates `diagonal_mode[i]` where
the name `i` is unbound — the only binding of `i` is the `for` loop inside
the other branch, which was not executed — so Python raises `NameError`
before any diagonal is sampled. -/
def buildDiagonals (sharedWeights : Bool) (L : ℕ) (modes : ℕ → String)
    (draw : ℕ → String → Tensor3) : Except String (List Tensor3) :=
  if ¬sharedWeights then
    .ok ((List.range L).map (fun i => draw i (modes i)))
  else
    .error "NameError: name i is not defined"

/-- A real-valued measurement tensor (the `dtype` of `abs().square()` of a
complex tensor is real). -/
structure Tensor3R where
  C : ℕ
  H : ℕ
  W : ℕ
  data : ℕ → ℕ → ℕ → ℝ

/-- `PhaseRetrieval.A` (source lines 171-179): `self.B(x).abs().square()`,
the entrywise squared magnitude of the linear measurement, a real tensor. -/
def prA (B : Tensor3 → Tensor3) (x : Tensor3) : Tensor3R :=
  ⟨(B x).C, (B x).H, (B x).W, fun c i j => Complex.abs ((B x).data c i j) ^ 2⟩

/-- `PhaseRetrieval.forward` (source lines 205-212):
`return self.sensor(self.noise(self.A(x)))`.  The sensor nonlinearity and the
noise model are external collaborators, so they are arbitrary functions
here. -/
def prForward (B : Tensor3 → Tensor3) (sensor noise : Tensor3R → Tensor3R)
    (x : Tensor3) : Tensor3R :=
  sensor (noise (prA B x))

/-- `torch.Tensor.mean` of a complex tensor: the entry average. -/
def tmean (d : Tensor3) : ℂ :=
  (∑ c ∈ range d.C, ∑ i ∈ range d.H, ∑ j ∈ range d.W, d.data c i j) /
    ((d.C * d.H * d.W : ℕ) : ℂ)

/-- `torch.Tensor.var` of a complex tensor: the real unbiased variance
`∑ |entry - mean|² / (count - 1)` (Bessel-corrected, `torch`'s default). -/
def tvar (d : Tensor3) : ℝ :=
  (∑ c ∈ range d.C, ∑ i ∈ range d.H, ∑ j ∈ range d.W,
    Complex.abs (d.data c i j - tmean d) ^ 2) / (((d.C * d.H * d.W : ℕ) : ℝ) - 1)

/-- The two possible non-raising outcomes of `get_A_squared_mean`:
`warnNone` stands for printing the line-456 warning and returning `None`. -/
inductive MeanResult
  | warnNone
  | value (v : ℂ)

/-- `StructuredRandomPhaseRetrieval.get_A_squared_mean` (source lines
454-458): when `n_layers == 0.5` it prints a warning and returns `None`;
otherwise it returns `self.diagonals[0].var() + self.diagonals[0].mean()**2`,
which raises `IndexError` when the diagonal list is empty. -/
def get_A_squared_mean (nLayers : ℚ) (diags : List Tensor3) :
    Except String MeanResult :=
  if nLayers = 1 / 2 then .ok .warnNone
  else
    match diags with
    | [] => .error "IndexError: list index out of range"
    | d :: _ => .ok (.value ((tvar d : ℝ) + (tmean d) ^ 2))

/-- `triangular_distribution` (source lines 27-40): inverse-CDF sampling of a
symmetric triangular distribution on `[-a, a]` from a uniform draw `u`. -/
def triangular_distribution (a u : ℝ) : ℝ :=
  if u < 1 / 2 then -a + Real.sqrt (u * 2 * a ^ 2)
  else a - Real.sqrt ((1 - u) * 2 * a ^ 2)

/-- The second moment `E[f(U)²]` of a single `torch.rand` draw `U` (uniform on
`[0, 1]`) transformed by the real map `f`. -/
def randMoment (f : ℝ → ℝ) : ℝ := ∫ u in (0 : ℝ)..1, f u ^ 2

/-- A `uniform_phase` entry (source lines 94-98): `exp(1j · 2π · u)` for a
uniform draw `u`. -/
def uniformPhaseEntry (u : ℝ) : ℂ :=
  Complex.exp ((2 * Real.pi * u : ℝ) * Complex.I)

/-- Second moment of a `uniform_phase` entry. -/
def smUniformPhase : ℝ :=
  ∫ u in (0 : ℝ)..1, Complex.abs (uniformPhaseEntry u) ^ 2

/-- Second moment of a `uniform_magnitude` entry `scale · u` (source lines
99-105): `scale` is `config.range` when that field is truthy and `√3`
otherwise. -/
def smUniformMagnitude (scale : ℝ) : ℝ := randMoment (fun u => scale * u)

/-- Modelled from the spec (`torch` contract, not repository code):
`torch.randn` with a complex dtype draws real and imaginary parts
independently from `N(0, 1/2)`, so each part has second moment `1/2`. -/
def randnComplexPartVar : ℝ := 1 / 2

/-- Second moment of a `gaussian` entry (source lines 106-107): the code
applies no scaling, so it is the sum of the two part variances. -/
def smGaussian : ℝ := randnComplexPartVar + randnComplexPartVar

/-- Modelled from the spec (`torch` contract, recorded in the source comment
at line 109): a `Laplace(0, scale)` draw has variance `2·scale²`. -/
def laplaceVar (scale : ℝ) : ℝ := 2 * scale ^ 2

/-- Second moment of a `laplace` entry (source lines 108-112): independent
real and imaginary `Laplace(0, 0.5)` draws. -/
def smLaplace : ℝ := laplaceVar (1 / 2) + laplaceVar (1 / 2)

/-- Modelled from the spec (`torch` contract, recorded in the source comment
at line 114): a standard Student-t draw with `df` degrees of freedom has
variance `df/(df-2)` when `df > 2`. -/
def studentTVar (df : ℝ) : ℝ := df / (df - 2)

/-- The scale factor `sqrt((df-2)/df/2)` applied by the `student-t` branch
(source line 117). -/
def studentTScale (df : ℝ) : ℝ := Real.sqrt ((df - 2) / df / 2)

/-- Second moment of a `student-t` entry (source lines 113-118):
`scale·(t₁ + i·t₂)` with independent standard Student-t draws. -/
def smStudentT (df : ℝ) : ℝ :=
  studentTScale df ^ 2 * studentTVar df + studentTScale df ^ 2 * studentTVar df

/-- `MarchenkoPastur.gamma` (source line 47): `n / m`. -/
def mpGamma (m n : ℕ) : ℝ := (n : ℝ) / (m : ℝ)

/-- `MarchenkoPastur.sigma` on the automatic path (source line 52), used by
`generate_diagonal`, which never passes `sigma`: `(1 + gamma) ** (-0.25)`. -/
def mpSigma (m n : ℕ) : ℝ := (1 + mpGamma m n) ^ (-(1 / 4) : ℝ)

/-- `MarchenkoPastur.mean` (source lines 76-77): `sigma ** 2`, the mean of the
Marchenko-Pastur law the sampler draws from. -/
def mpMean (m n : ℕ) : ℝ := mpSigma m n ^ 2

/-- `MarchenkoPastur.var` (source lines 79-80): `gamma * sigma ** 4`. -/
def mpVar (m n : ℕ) : ℝ := mpGamma m n * mpSigma m n ^ 4

/-- Total mass of the density the rejection sampler accepts against
(source lines 59-60 and 63-74): `sample` proposes uniformly on
`[min_supp, max_supp]` and accepts under `pdf`, so its draws follow the
support-restricted Marchenko-Pastur density
`√((max_supp − x)(x − min_supp)) / (2πσ²γx)` renormalized by its total mass.
That mass is `min(1, 1/γ)`: for `γ ≤ 1` the Marchenko-Pastur law is purely
continuous, while for `γ > 1` it has an atom of mass `1 − 1/γ` at `0` which
the support-restricted density excludes.  With `γ = n/m`, `1/γ = m/n`. -/
def mpAcceptMass (m n : ℕ) : ℝ := min 1 ((m : ℝ) / (n : ℝ))

/-- Second moment of a `marchenko` entry (source lines 119-121): the entry is
`sqrt(X)` for `X` drawn by `MarchenkoPastur.sample`, so `E[|entry|²] = E[X]`.
The acceptance-rejection draw follows the support-restricted density
renormalized, so `E[X]` is the continuous part's first moment — `σ²`, the
value `mean()` itself reports (lines 76-77), independent of `γ` — divided by
the accepted mass: `σ²` when `γ ≤ 1` and `γ·σ²` when `γ > 1`. -/
def smMarchenko (m n : ℕ) : ℝ := mpMean m n / mpAcceptMass m n

/-- The four-point alphabet `[1, -1, 1j, -1j]` of the `polar4` mode (source
line 134). -/
def polar4Values : Fin 4 → ℂ := ![1, -1, Complex.I, -Complex.I]

/-- Second moment of a `polar4` entry, drawn uniformly from the alphabet
(source lines 132-136). -/
def smPolar4 : ℝ := (∑ k : Fin 4, Complex.abs (polar4Values k) ^ 2) / 4

/-- A `uniform` mode part `√6 · (u - 1/2)` (source lines 122-126). -/
def uniformPartEntry (u : ℝ) : ℝ := Real.sqrt 6 * (u - 1 / 2)

/-- Second moment of a `uniform` entry: independent real and imaginary parts
`√6 · (U - 1/2)`. -/
def smUniform : ℝ := randMoment uniformPartEntry + randMoment uniformPartEntry

/-- Second moment of a `triangular` entry (source lines 127-131): independent
real and imaginary parts sampled by `triangular_distribution(√3, ·)`. -/
def smTriangular : ℝ :=
  randMoment (triangular_distribution (Real.sqrt 3)) +
    randMoment (triangular_distribution (Real.sqrt 3))

/-- The named configuration fields of the distribution config consumed by
`generate_diagonal`; a `none` range models an absent (falsy) `DotMap`
entry. -/
structure DistriConfig where
  range : Option ℝ
  degree_of_freedom : ℝ
  m : ℕ
  n : ℕ

/-- The second moment `E[|entry|²]` of one sampled entry for each branch of
`generate_diagonal` (source lines 82-144), following the source's dispatch
order; unsupported mode strings raise `ValueError` (line 138).  Python
truthiness of `config.range` (line 100): an absent field or the value `0` is
falsy. -/
def entrySecondMoment (mode : String) (cfg : DistriConfig) : Except String ℝ :=
  if mode = "uniform_phase" then .ok smUniformPhase
  else if mode = "uniform_magnitude" then
    .ok (match cfg.range with
      | some r => if r ≠ 0 then smUniformMagnitude r
                  else smUniformMagnitude (Real.sqrt 3)
      | none => smUniformMagnitude (Real.sqrt 3))
  else if mode = "gaussian" then .ok smGaussian
  else if mode = "laplace" then .ok smLaplace
  else if mode = "student-t" then .ok (smStudentT cfg.degree_of_freedom)
  else if mode = "marchenko" then .ok (smMarchenko cfg.m cfg.n)
  else if mode = "uniform" then .ok smUniform
  else if mode = "triangular" then .ok smTriangular
  else if mode = "polar4" then .ok smPolar4
  else .error ("ValueError: Unsupported mode: " ++ mode)

/-- Example sensor nonlinearity: add one entrywise. -/
def addOne : Tensor3R → Tensor3R :=
  fun t => ⟨t.C, t.H, t.W, fun c i j => t.data c i j + 1⟩

/-- Example noise map: double entrywise. -/
def timesTwo : Tensor3R → Tensor3R :=
  fun t => ⟨t.C, t.H, t.W, fun c i j => 2 * t.data c i j⟩

/-- The all-ones 1×1×1 complex tensor, used as a concrete input. -/
def oneT : Tensor3 := ⟨1, 1, 1, fun _ _ _ => 1⟩

/-- The all-zero 1×1×1 complex tensor, used as a concrete input. -/
def zeroSmallT : Tensor3 := ⟨1, 1, 1, fun _ _ _ => 0⟩

/-- A concrete equisampled 1×1×1 `fft` configuration with no layers. -/
def cfgEqui : SRConfig := ⟨1, 1, 1, 1, 1, 1, 0, "fft", []⟩

/-- A concrete oversampling configuration, input 2×3 and output 5×4 (odd and
even per-axis differences). -/
def cfgOver : SRConfig := ⟨1, 2, 3, 1, 5, 4, 0, "fft", []⟩

/-- A concrete 2×3 tensor of zeros. -/
def zeroT23 : Tensor3 := ⟨1, 2, 3, fun _ _ _ => 0⟩

/-! ### General lemmas about the shape adapter -/

/-- The two slicing branches of `trimming` coincide, so trimming is plainly an
index shift with the padded amounts removed from the extents. -/
theorem trimming_eq_simple (left right top bottom : ℕ) (x : Tensor3) :
    trimming left right top bottom x =
      ⟨x.C, x.H - top - bottom, x.W - left - right,
        fun c i j => x.data c (i + top) (j + left)⟩ := by
  unfold trimming
  by_cases hb : bottom = 0 <;> by_cases hr : right = 0 <;> simp [hb, hr]

/-- Trimming after padding with the same amounts is the identity. -/
theorem trim_pad (left right top bottom : ℕ) (x : Tensor3) :
    Tensor3.TorchEq
      (trimming left right top bottom (padding left right top bottom x)) x := by
  rw [trimming_eq_simple]
  refine ⟨rfl, by simp [padding]; omega, by simp [padding]; omega, ?_⟩
  intro c _ i hi j hj
  simp only [padding]
  rw [if_pos (by omega)]
  congr 1 <;> omega

/-! ### Inner-product adjointness building blocks -/

/-- The inner product is conjugate-symmetric. -/
theorem innerProd_conj_symm (C H W : ℕ) (a b : Tensor3) :
    innerProd C H W a b = (starRingEnd ℂ) (innerProd C H W b a) := by
  unfold innerProd
  simp only [map_sum, map_mul, Complex.conj_conj]
  exact Finset.sum_congr rfl fun c _ => Finset.sum_congr rfl fun i _ =>
    Finset.sum_congr rfl fun j _ => mul_comm _ _

/-- A sum over an enlarged index range whose terms vanish outside the window
`[t, t + H)` equals the shifted sum over the window. -/
theorem sum_range_shift_of_zero (t H b : ℕ) (h : ℕ → ℂ)
    (hz : ∀ i, i < t + H + b → ¬(t ≤ i ∧ i < t + H) → h i = 0) :
    ∑ i ∈ range (t + H + b), h i = ∑ i ∈ range H, h (i + t) := by
  have himg : (range H).image (fun i => i + t) ⊆ range (t + H + b) := by
    intro i hi
    simp only [Finset.mem_image, mem_range] at hi ⊢
    omega
  calc ∑ i ∈ range (t + H + b), h i
      = ∑ i ∈ (range H).image (fun i => i + t), h i := by
        refine (Finset.sum_subset himg fun i hi hni => ?_).symm
        refine hz i (mem_range.mp hi) fun hwin => hni ?_
        simp only [Finset.mem_image, mem_range]
        exact ⟨i - t, by omega, by omega⟩
    _ = ∑ i ∈ range H, h (i + t) := by
        refine Finset.sum_image ?_
        intro a _ c _ hac
        omega

/-- Zero-padding is adjoint to trimming: `⟨pad x, y⟩ = ⟨x, trim y⟩`. -/
theorem pad_adjoint (l r t b : ℕ) (C : ℕ) (x y : Tensor3) :
    innerProd C (t + x.H + b) (l + x.W + r) (padding l r t b x) y
      = innerProd C x.H x.W x (trimming l r t b y) := by
  unfold innerProd
  refine Finset.sum_congr rfl fun c _ => ?_
  have hrow : ∀ i, i < t + x.H + b → ¬(t ≤ i ∧ i < t + x.H) →
      (∑ j ∈ range (l + x.W + r),
        (starRingEnd ℂ) ((padding l r t b x).data c i j) * y.data c i j) = 0 := by
    intro i _ hwin
    refine Finset.sum_eq_zero fun j _ => ?_
    simp only [padding]
    rw [if_neg (by omega)]
    simp
  rw [sum_range_shift_of_zero t x.H b _ hrow]
  refine Finset.sum_congr rfl fun i hi => ?_
  have hi' := mem_range.mp hi
  have hcol : ∀ j, j < l + x.W + r → ¬(l ≤ j ∧ j < l + x.W) →
      (starRingEnd ℂ) ((padding l r t b x).data c (i + t) j) * y.data c (i + t) j = 0 := by
    intro j _ hwin
    simp only [padding]
    rw [if_neg (by omega)]
    simp
  rw [sum_range_shift_of_zero l x.W r _ hcol]
  refine Finset.sum_congr rfl fun j hj => ?_
  have hj' := mem_range.mp hj
  rw [trimming_eq_simple]
  simp only [padding]
  rw [if_pos (by omega)]
  simp [Nat.add_sub_cancel]

/-- Trimming is adjoint to zero-padding: `⟨trim z, y⟩ = ⟨z, pad y⟩`. -/
theorem trim_adjoint (l r t b : ℕ) (C : ℕ) (z y : Tensor3) :
    innerProd C y.H y.W (trimming l r t b z) y
      = innerProd C (t + y.H + b) (l + y.W + r) z (padding l r t b y) := by
  rw [innerProd_conj_symm, ← pad_adjoint, ← innerProd_conj_symm]

/-- Swapping a conjugated kernel across an inner product of sums. -/
theorem adj_swap {α β : Type} (s : Finset α) (t : Finset β) (M : α → β → ℂ)
    (f : β → ℂ) (g : α → ℂ) :
    ∑ p ∈ s, (starRingEnd ℂ) (∑ q ∈ t, M p q * f q) * g p
      = ∑ q ∈ t, (starRingEnd ℂ) (f q) * ∑ p ∈ s, (starRingEnd ℂ) (M p q) * g p := by
  simp only [map_sum, map_mul, Finset.sum_mul, Finset.mul_sum]
  rw [Finset.sum_comm]
  exact Finset.sum_congr rfl fun q _ => Finset.sum_congr rfl fun p _ => by ring

/-- A separable transform whose kernel family is the entrywise conjugate
transpose of another is its adjoint for the inner product of the common
shape. -/
theorem sep_adjoint (K Kc : ℕ → ℕ → ℕ → ℂ)
    (hK : ∀ N u i, Kc N i u = (starRingEnd ℂ) (K N u i))
    (C H W : ℕ) (x y : Tensor3) (hxH : x.H = H) (hxW : x.W = W)
    (hyH : y.H = H) (hyW : y.W = W) :
    innerProd C H W (sepTransform K x) y
      = innerProd C H W x (sepTransform Kc y) := by
  simp only [innerProd, sepTransform]
  rw [hxH, hxW, hyH, hyW]
  refine Finset.sum_congr rfl fun c _ => ?_
  have step := adj_swap ((range H) ×ˢ (range W)) ((range H) ×ˢ (range W))
    (fun p q => K H p.1 q.1 * K W p.2 q.2)
    (fun q => x.data c q.1 q.2) (fun p => y.data c p.1 p.2)
  simp only [Finset.sum_product, map_mul] at step
  simp only [hK, map_mul]
  exact step

/-- The orthonormal inverse DFT kernel is the conjugate transpose of the
orthonormal DFT kernel. -/
theorem fourierKernelInv_conj (N u i : ℕ) :
    fourierKernelInv N i u = (starRingEnd ℂ) (fourierKernel N u i) := by
  unfold fourierKernel fourierKernelInv
  rw [map_div₀, Complex.conj_ofReal, ← Complex.exp_conj]
  congr 2
  rw [map_mul, Complex.conj_ofReal, Complex.conj_I, Complex.ofReal_neg]
  ring

/-- The orthonormal inverse DCT kernel is the conjugate transpose of the
orthonormal DCT-II kernel (the kernel is real). -/
theorem dctKernelInv_conj (N k n : ℕ) :
    dctKernelInv N n k = (starRingEnd ℂ) (dctKernel N k n) := by
  unfold dctKernelInv dctKernel
  rw [Complex.conj_ofReal]

/-- Entrywise multiplication by a diagonal is adjoint to multiplication by its
conjugate. -/
theorem diag_adjoint (C H W : ℕ) (d x y : Tensor3) :
    innerProd C H W (diagMul d x) y = innerProd C H W x (diagMul (conjT d) y) := by
  unfold innerProd diagMul conjT
  exact Finset.sum_congr rfl fun c _ => Finset.sum_congr rfl fun i _ =>
    Finset.sum_congr rfl fun j _ => by simp only [map_mul]; ring

/-- The adjoint layer chain preserves the height extent. -/
theorem foldr_adj_H (Kc : ℕ → ℕ → ℕ → ℂ) (ds : List Tensor3) (y : Tensor3) :
    (ds.foldr (fun d a => diagMul (conjT d) (sepTransform Kc a)) y).H = y.H := by
  induction ds with
  | nil => rfl
  | cons d ds ih => exact ih

/-- The adjoint layer chain preserves the width extent. -/
theorem foldr_adj_W (Kc : ℕ → ℕ → ℕ → ℂ) (ds : List Tensor3) (y : Tensor3) :
    (ds.foldr (fun d a => diagMul (conjT d) (sepTransform Kc a)) y).W = y.W := by
  induction ds with
  | nil => rfl
  | cons d ds ih => exact ih

/-- Core adjoint identity for the layer loop: folding diagonal-then-transform
layers forward on the left pairs with the reversed conjugate-diagonal,
inverse-transform chain on the right. -/
theorem loop_adjoint (K Kc : ℕ → ℕ → ℕ → ℂ)
    (hK : ∀ N u i, Kc N i u = (starRingEnd ℂ) (K N u i))
    (C H W : ℕ) (l : List Tensor3) (x y : Tensor3)
    (hxH : x.H = H) (hxW : x.W = W) (hyH : y.H = H) (hyW : y.W = W) :
    innerProd C H W (l.foldl (fun a d => sepTransform K (diagMul d a)) x) y
      = innerProd C H W x
          (l.foldr (fun d a => diagMul (conjT d) (sepTransform Kc a)) y) := by
  induction l generalizing x with
  | nil => rfl
  | cons d ds ih =>
      rw [List.foldl_cons, List.foldr_cons]
      have h1 : (ds.foldr (fun d a => diagMul (conjT d) (sepTransform Kc a)) y).H = H :=
        (foldr_adj_H Kc ds y).trans hyH
      have h2 : (ds.foldr (fun d a => diagMul (conjT d) (sepTransform Kc a)) y).W = W :=
        (foldr_adj_W Kc ds y).trans hyW
      rw [ih (sepTransform K (diagMul d x)) hxH hxW]
      rw [sep_adjoint K Kc hK C H W (diagMul d x) _ hxH hxW h1 h2]
      exact diag_adjoint C H W d x _

/-- A fold over index positions reading a list through `getD` is the fold over
the list, provided the index range is the list length. -/
theorem foldl_range_getD {α β : Type*} (l : List α) (f : β → α → β) (init : β)
    (d : α) :
    (List.range l.length).foldl (fun a i => f a (l.getD i d)) init
      = l.foldl f init := by
  induction l generalizing init with
  | nil => rfl
  | cons x xs ih =>
      rw [List.length_cons, List.range_succ_eq_map, List.foldl_cons, List.foldl_map]
      simp only [List.getD_cons_zero, List.getD_cons_succ]
      exact ih (f init x)

/-- `getD` on a reversed list flips the index. -/
theorem getD_reverse {α : Type*} (l : List α) (d : α) (i : ℕ)
    (hi : i < l.length) :
    l.reverse.getD i d = l.getD (l.length - 1 - i) d := by
  rw [List.getD_eq_getElem?_getD, List.getD_eq_getElem?_getD,
    List.getElem?_reverse hi]

/-- A fold over index positions reading a list backwards through `getD`
(Python's `l[-i-1]`) is the fold over the reversed list. -/
theorem foldl_range_rev_getD {α β : Type*} (l : List α) (g : β → α → β)
    (init : β) (d : α) :
    (List.range l.length).foldl (fun a i => g a (l.getD (l.length - 1 - i) d)) init
      = l.reverse.foldl g init := by
  have h1 := foldl_range_getD l.reverse g init d
  rw [List.length_reverse] at h1
  rw [← h1]
  refine List.foldl_ext _ _ init fun a i hi => ?_
  rw [getD_reverse l d i (List.mem_range.mp hi)]

/-- `compare` on a strictly smaller first argument. -/
theorem compare_lt {a b : ℕ} (h : a < b) : compare a b = "<" := by
  unfold compare
  rw [if_pos h]

/-- `compare` on equal arguments. -/
theorem compare_eq {a b : ℕ} (h : a = b) : compare a b = "=" := by
  unfold compare
  rw [if_neg (by omega), if_pos h]

/-- `compare` on a strictly larger first argument. -/
theorem compare_gt {a b : ℕ} (h : b < a) : compare a b = ">" := by
  unfold compare
  rw [if_neg (by omega), if_neg (by omega)]

/-- The three sampling modes and the axis orderings they certify. -/
theorem srMode_spec (cfg : SRConfig) (mode : String)
    (h : srMode cfg = .ok mode) :
    (mode = "oversampling" ∧ cfg.inH ≤ cfg.outH ∧ cfg.inW ≤ cfg.outW) ∨
    (mode = "undersampling" ∧ cfg.outH ≤ cfg.inH ∧ cfg.outW ≤ cfg.inW) ∨
    (mode = "equisampling" ∧ cfg.inH = cfg.outH ∧ cfg.inW = cfg.outW) := by
  rcases Nat.lt_trichotomy cfg.inH cfg.outH with h1 | h1 | h1 <;>
    rcases Nat.lt_trichotomy cfg.inW cfg.outW with h2 | h2 | h2
  · have e : srMode cfg = .ok "oversampling" := by
      unfold srMode; rw [compare_lt h1, compare_lt h2]; rfl
    rw [e] at h
    exact Or.inl ⟨(Except.ok.inj h).symm, by omega, by omega⟩
  · have e : srMode cfg = .ok "oversampling" := by
      unfold srMode; rw [compare_lt h1, compare_eq h2]; rfl
    rw [e] at h
    exact Or.inl ⟨(Except.ok.inj h).symm, by omega, by omega⟩
  · have e : srMode cfg = .error
        "ValueError: Does not support different sampling schemes on height and width." := by
      unfold srMode; rw [compare_lt h1, compare_gt h2]; rfl
    rw [e] at h
    exact absurd h (by simp)
  · have e : srMode cfg = .ok "oversampling" := by
      unfold srMode; rw [compare_eq h1, compare_lt h2]; rfl
    rw [e] at h
    exact Or.inl ⟨(Except.ok.inj h).symm, by omega, by omega⟩
  · have e : srMode cfg = .ok "equisampling" := by
      unfold srMode; rw [compare_eq h1, compare_eq h2]; rfl
    rw [e] at h
    exact Or.inr (Or.inr ⟨(Except.ok.inj h).symm, by omega, by omega⟩)
  · have e : srMode cfg = .ok "undersampling" := by
      unfold srMode; rw [compare_eq h1, compare_gt h2]; rfl
    rw [e] at h
    exact Or.inr (Or.inl ⟨(Except.ok.inj h).symm, by omega, by omega⟩)
  · have e : srMode cfg = .error
        "ValueError: Does not support different sampling schemes on height and width." := by
      unfold srMode; rw [compare_gt h1, compare_lt h2]; rfl
    rw [e] at h
    exact absurd h (by simp)
  · have e : srMode cfg = .ok "undersampling" := by
      unfold srMode; rw [compare_gt h1, compare_eq h2]; rfl
    rw [e] at h
    exact Or.inr (Or.inl ⟨(Except.ok.inj h).symm, by omega, by omega⟩)
  · have e : srMode cfg = .ok "undersampling" := by
      unfold srMode; rw [compare_gt h1, compare_gt h2]; rfl
    rw [e] at h
    exact Or.inr (Or.inl ⟨(Except.ok.inj h).symm, by omega, by omega⟩)

/-- Unpacking a successful construction: the mode is accepted, the `n_layers`
assertion passed, the transform is supported, and the returned closures are
the forward/adjoint bodies. -/
theorem buildOperator_ok (cfg : SRConfig)
    (A Aadj : Tensor3 → Except String Tensor3)
    (h : buildOperator cfg = .ok (A, Aadj)) :
    ∃ mode p, srMode cfg = .ok mode ∧
      (fracPart cfg.nLayers = 0 ∨ fracPart cfg.nLayers = 1 / 2) ∧
      selectTransform cfg.transform = .ok p ∧
      A = srForward cfg mode p.1 ∧ Aadj = srAdjoint cfg mode p.2 := by
  unfold buildOperator at h
  cases hm : srMode cfg with
  | error e =>
      rw [hm] at h
      simp only [Except.bind, bind] at h
      exact absurd h (by simp)
  | ok mode =>
      rw [hm] at h
      simp only [Except.bind, bind] at h
      by_cases hv : fracPart cfg.nLayers = 0 ∨ fracPart cfg.nLayers = 1 / 2
      · rw [if_neg (not_not_intro hv)] at h
        cases hs : selectTransform cfg.transform with
        | error e =>
            rw [hs] at h
            exact absurd h (by simp)
        | ok p =>
            rw [hs] at h
            have hp := Except.ok.inj h
            exact ⟨mode, p, rfl, hv, rfl,
              (congrArg Prod.fst hp).symm, (congrArg Prod.snd hp).symm⟩
      · rw [if_pos hv] at h
        exact absurd h (by simp)

/-- Padding height arithmetic. -/
theorem padding_H (l r t b : ℕ) (x : Tensor3) :
    (padding l r t b x).H = t + x.H + b := rfl

/-- Padding width arithmetic. -/
theorem padding_W (l r t b : ℕ) (x : Tensor3) :
    (padding l r t b x).W = l + x.W + r := rfl

/-- Both supported transforms are separable with conjugate-transpose inverse
kernels. -/
theorem selectTransform_kernels (t : String)
    (p : (Tensor3 → Tensor3) × (Tensor3 → Tensor3))
    (h : selectTransform t = .ok p) :
    ∃ K Kc, p = (sepTransform K, sepTransform Kc) ∧
      ∀ N u i, Kc N i u = (starRingEnd ℂ) (K N u i) := by
  unfold selectTransform at h
  by_cases hf : t = "fft"
  · rw [if_pos hf] at h
    exact ⟨fourierKernel, fourierKernelInv, (Except.ok.inj h).symm,
      fourierKernelInv_conj⟩
  · rw [if_neg hf] at h
    by_cases hd : t = "dct"
    · rw [if_pos hd] at h
      exact ⟨dctKernel, dctKernelInv, (Except.ok.inj h).symm,
        fun N u i => dctKernelInv_conj N u i⟩
    · rw [if_neg hd] at h
      exact absurd h (by simp)

/-- The forward layer loop of the closure, which reads `diagonals[i]`, is the
fold over the diagonal list when the list length matches `floor(n_layers)`. -/
theorem forward_loop_eq (K : ℕ → ℕ → ℕ → ℂ) (l : List Tensor3) (L : ℕ)
    (hlen : l.length = L) (x0 : Tensor3) :
    (List.range L).foldl
        (fun a i => sepTransform K (diagMul (l.getD i zeroT) a)) x0
      = l.foldl (fun a d => sepTransform K (diagMul d a)) x0 := by
  subst hlen
  exact foldl_range_getD l (fun a d => sepTransform K (diagMul d a)) x0 zeroT

/-- The adjoint layer loop of the closure, which reads `diagonals[-i-1]`, is
the right fold over the diagonal list when the list length matches
`floor(n_layers)`. -/
theorem adjoint_loop_eq (Kc : ℕ → ℕ → ℕ → ℂ) (l : List Tensor3) (L : ℕ)
    (hlen : l.length = L) (y0 : Tensor3) :
    (List.range L).foldl
        (fun a i => diagMul (conjT (l.getD (l.length - 1 - i) zeroT))
          (sepTransform Kc a)) y0
      = l.foldr (fun d a => diagMul (conjT d) (sepTransform Kc a)) y0 := by
  subst hlen
  rw [foldl_range_rev_getD l
    (fun a d => diagMul (conjT d) (sepTransform Kc a)) y0 zeroT]
  exact List.foldl_reverse l (fun a d => diagMul (conjT d) (sepTransform Kc a)) y0

/-- The separable transform preserves the height extent. -/
theorem sepTransform_H (K : ℕ → ℕ → ℕ → ℂ) (x : Tensor3) :
    (sepTransform K x).H = x.H := rfl

/-- The separable transform preserves the width extent. -/
theorem sepTransform_W (K : ℕ → ℕ → ℕ → ℂ) (x : Tensor3) :
    (sepTransform K x).W = x.W := rfl

/-- C1: for every constructed structured random operator (any sampling mode,
any supported transform, any valid `n_layers` including a fractional leading
half-transform) and all complex tensors `x` of the input shape and `y` of the
output shape, `⟨B x, y⟩ = ⟨x, B_adjoint y⟩` holds exactly, where `B` and
`B_adjoint` are the closures `A`/`A_adjoint` built at construction.  The
hypotheses record what construction guarantees: the channel counts agree and
the diagonal list holds one draw per layer. -/
theorem c1_adjoint_exact (cfg : SRConfig)
    (A Aadj : Tensor3 → Except String Tensor3)
    (hbuild : buildOperator cfg = .ok (A, Aadj))
    (hC : cfg.inC = cfg.outC)
    (hlen : cfg.diagonals.length = numLayers cfg)
    (x y : Tensor3)
    (hx : x.shape = (cfg.inC, cfg.inH, cfg.inW))
    (hy : y.shape = (cfg.outC, cfg.outH, cfg.outW)) :
    ∃ Bx By, A x = .ok Bx ∧ Aadj y = .ok By ∧
      innerProd cfg.outC cfg.outH cfg.outW Bx y
        = innerProd cfg.inC cfg.inH cfg.inW x By := by
  obtain ⟨mode, p, hm, hvalid, hsel, hA, hAadj⟩ := buildOperator_ok cfg A Aadj hbuild
  obtain ⟨K, Kc, hp, hK⟩ := selectTransform_kernels cfg.transform p hsel
  subst hp hA hAadj
  have hxH : x.H = cfg.inH := by
    have := congrArg (fun s : ℕ × ℕ × ℕ => s.2.1) hx
    simpa [Tensor3.shape] using this
  have hxW : x.W = cfg.inW := by
    have := congrArg (fun s : ℕ × ℕ × ℕ => s.2.2) hx
    simpa [Tensor3.shape] using this
  have hyH : y.H = cfg.outH := by
    have := congrArg (fun s : ℕ × ℕ × ℕ => s.2.1) hy
    simpa [Tensor3.shape] using this
  have hyW : y.W = cfg.outW := by
    have := congrArg (fun s : ℕ × ℕ × ℕ => s.2.2) hy
    simpa [Tensor3.shape] using this
  obtain ⟨hmode, hH, hW⟩ | ⟨hmode, hH, hW⟩ | ⟨hmode, hH, hW⟩ :=
    srMode_spec cfg mode hm <;> subst hmode
  · -- oversampling
    have hsumH : changeTop cfg + changeBottom cfg + cfg.inH = cfg.outH := by
      unfold changeTop changeBottom
      omega
    have hsumW : changeLeft cfg + changeRight cfg + cfg.inW = cfg.outW := by
      unfold changeLeft changeRight
      omega
    have hAx : srForward cfg "oversampling" (sepTransform K, sepTransform Kc).1 x
        = .ok ((List.range (numLayers cfg)).foldl
            (fun a i => sepTransform K (diagMul (cfg.diagonals.getD i zeroT) a))
            (if fracPart cfg.nLayers = 1 / 2 then
              sepTransform K (padding (changeLeft cfg) (changeRight cfg)
                (changeTop cfg) (changeBottom cfg) x)
            else padding (changeLeft cfg) (changeRight cfg)
              (changeTop cfg) (changeBottom cfg) x)) := by
      unfold srForward
      rw [if_neg (fun hne => hne hx)]
      simp only [if_pos (show ("oversampling" : String) = "oversampling" from rfl),
        if_neg (show ¬(("oversampling" : String) = "undersampling") by decide),
        if_true, if_false]
    have hAy : srAdjoint cfg "oversampling" (sepTransform K, sepTransform Kc).2 y
        = .ok (trimming (changeLeft cfg) (changeRight cfg)
            (changeTop cfg) (changeBottom cfg)
            (if fracPart cfg.nLayers = 1 / 2 then
              sepTransform Kc ((List.range (numLayers cfg)).foldl
                (fun a i => diagMul
                  (conjT (cfg.diagonals.getD (cfg.diagonals.length - 1 - i) zeroT))
                  (sepTransform Kc a)) y)
            else (List.range (numLayers cfg)).foldl
                (fun a i => diagMul
                  (conjT (cfg.diagonals.getD (cfg.diagonals.length - 1 - i) zeroT))
                  (sepTransform Kc a)) y)) := by
      unfold srAdjoint
      rw [if_neg (fun hne => hne hy)]
      simp only [if_neg (show ¬(("oversampling" : String) = "undersampling") by decide),
        if_pos (show ("oversampling" : String) = "oversampling" from rfl),
        if_true, if_false]
    refine ⟨_, _, hAx, hAy, ?_⟩
    rw [forward_loop_eq K cfg.diagonals (numLayers cfg) hlen,
      adjoint_loop_eq Kc cfg.diagonals (numLayers cfg) hlen]
    rcases hvalid with h0 | hhalf
    · have hnot : ¬(fracPart cfg.nLayers = 1 / 2) := by rw [h0]; norm_num
      rw [if_neg hnot, if_neg hnot]
      rw [loop_adjoint K Kc hK cfg.outC cfg.outH cfg.outW cfg.diagonals _ y
        (by rw [padding_H, hxH]; omega) (by rw [padding_W, hxW]; omega) hyH hyW]
      rw [show cfg.outH = changeTop cfg + x.H + changeBottom cfg by omega,
        show cfg.outW = changeLeft cfg + x.W + changeRight cfg by omega]
      rw [pad_adjoint (changeLeft cfg) (changeRight cfg) (changeTop cfg)
        (changeBottom cfg) cfg.outC x _]
      rw [hxH, hxW, hC]
    · rw [if_pos hhalf, if_pos hhalf]
      rw [loop_adjoint K Kc hK cfg.outC cfg.outH cfg.outW cfg.diagonals _ y
        (by rw [sepTransform_H, padding_H, hxH]; omega)
        (by rw [sepTransform_W, padding_W, hxW]; omega) hyH hyW]
      rw [sep_adjoint K Kc hK cfg.outC cfg.outH cfg.outW _ _
        (by rw [padding_H, hxH]; omega) (by rw [padding_W, hxW]; omega)
        ((foldr_adj_H Kc cfg.diagonals y).trans hyH)
        ((foldr_adj_W Kc cfg.diagonals y).trans hyW)]
      rw [show cfg.outH = changeTop cfg + x.H + changeBottom cfg by omega,
        show cfg.outW = changeLeft cfg + x.W + changeRight cfg by omega]
      rw [pad_adjoint (changeLeft cfg) (changeRight cfg) (changeTop cfg)
        (changeBottom cfg) cfg.outC x _]
      rw [hxH, hxW, hC]
  · -- undersampling
    have hsumH : changeTop cfg + changeBottom cfg + cfg.outH = cfg.inH := by
      unfold changeTop changeBottom
      omega
    have hsumW : changeLeft cfg + changeRight cfg + cfg.outW = cfg.inW := by
      unfold changeLeft changeRight
      omega
    have hAx : srForward cfg "undersampling" (sepTransform K, sepTransform Kc).1 x
        = .ok (trimming (changeLeft cfg) (changeRight cfg)
            (changeTop cfg) (changeBottom cfg)
            ((List.range (numLayers cfg)).foldl
              (fun a i => sepTransform K (diagMul (cfg.diagonals.getD i zeroT) a))
              (if fracPart cfg.nLayers = 1 / 2 then sepTransform K x else x))) := by
      unfold srForward
      rw [if_neg (fun hne => hne hx)]
      simp only [if_neg (show ¬(("undersampling" : String) = "oversampling") by decide),
        if_pos (show ("undersampling" : String) = "undersampling" from rfl),
        if_true, if_false]
    have hAy : srAdjoint cfg "undersampling" (sepTransform K, sepTransform Kc).2 y
        = .ok (if fracPart cfg.nLayers = 1 / 2 then
            sepTransform Kc ((List.range (numLayers cfg)).foldl
              (fun a i => diagMul
                (conjT (cfg.diagonals.getD (cfg.diagonals.length - 1 - i) zeroT))
                (sepTransform Kc a))
              (padding (changeLeft cfg) (changeRight cfg)
                (changeTop cfg) (changeBottom cfg) y))
          else (List.range (numLayers cfg)).foldl
              (fun a i => diagMul
                (conjT (cfg.diagonals.getD (cfg.diagonals.length - 1 - i) zeroT))
                (sepTransform Kc a))
              (padding (changeLeft cfg) (changeRight cfg)
                (changeTop cfg) (changeBottom cfg) y)) := by
      unfold srAdjoint
      rw [if_neg (fun hne => hne hy)]
      simp only [if_pos (show ("undersampling" : String) = "undersampling" from rfl),
        if_neg (show ¬(("undersampling" : String) = "oversampling") by decide),
        if_true, if_false]
    refine ⟨_, _, hAx, hAy, ?_⟩
    rw [forward_loop_eq K cfg.diagonals (numLayers cfg) hlen,
      adjoint_loop_eq Kc cfg.diagonals (numLayers cfg) hlen]
    rcases hvalid with h0 | hhalf
    · have hnot : ¬(fracPart cfg.nLayers = 1 / 2) := by rw [h0]; norm_num
      rw [if_neg hnot, if_neg hnot]
      rw [← hyH, ← hyW]
      rw [trim_adjoint (changeLeft cfg) (changeRight cfg) (changeTop cfg)
        (changeBottom cfg) cfg.outC _ y]
      rw [show changeTop cfg + y.H + changeBottom cfg = cfg.inH by omega,
        show changeLeft cfg + y.W + changeRight cfg = cfg.inW by omega]
      rw [loop_adjoint K Kc hK cfg.outC cfg.inH cfg.inW cfg.diagonals x _
        hxH hxW (by rw [padding_H, hyH]; omega) (by rw [padding_W, hyW]; omega)]
      rw [hC]
    · rw [if_pos hhalf, if_pos hhalf]
      rw [← hyH, ← hyW]
      rw [trim_adjoint (changeLeft cfg) (changeRight cfg) (changeTop cfg)
        (changeBottom cfg) cfg.outC _ y]
      rw [show changeTop cfg + y.H + changeBottom cfg = cfg.inH by omega,
        show changeLeft cfg + y.W + changeRight cfg = cfg.inW by omega]
      rw [loop_adjoint K Kc hK cfg.outC cfg.inH cfg.inW cfg.diagonals _ _
        (by rw [sepTransform_H, hxH]) (by rw [sepTransform_W, hxW])
        (by rw [padding_H, hyH]; omega) (by rw [padding_W, hyW]; omega)]
      rw [sep_adjoint K Kc hK cfg.outC cfg.inH cfg.inW x _ hxH hxW
        (by rw [foldr_adj_H, padding_H, hyH]; omega)
        (by rw [foldr_adj_W, padding_W, hyW]; omega)]
      rw [hC]
  · -- equisampling
    have hAx : srForward cfg "equisampling" (sepTransform K, sepTransform Kc).1 x
        = .ok ((List.range (numLayers cfg)).foldl
            (fun a i => sepTransform K (diagMul (cfg.diagonals.getD i zeroT) a))
            (if fracPart cfg.nLayers = 1 / 2 then sepTransform K x else x)) := by
      unfold srForward
      rw [if_neg (fun hne => hne hx)]
      simp only [if_neg (show ¬(("equisampling" : String) = "oversampling") by decide),
        if_neg (show ¬(("equisampling" : String) = "undersampling") by decide),
        if_true, if_false]
    have hAy : srAdjoint cfg "equisampling" (sepTransform K, sepTransform Kc).2 y
        = .ok (if fracPart cfg.nLayers = 1 / 2 then
            sepTransform Kc ((List.range (numLayers cfg)).foldl
              (fun a i => diagMul
                (conjT (cfg.diagonals.getD (cfg.diagonals.length - 1 - i) zeroT))
                (sepTransform Kc a)) y)
          else (List.range (numLayers cfg)).foldl
              (fun a i => diagMul
                (conjT (cfg.diagonals.getD (cfg.diagonals.length - 1 - i) zeroT))
                (sepTransform Kc a)) y) := by
      unfold srAdjoint
      rw [if_neg (fun hne => hne hy)]
      simp only [if_neg (show ¬(("equisampling" : String) = "undersampling") by decide),
        if_neg (show ¬(("equisampling" : String) = "oversampling") by decide),
        if_true, if_false]
    refine ⟨_, _, hAx, hAy, ?_⟩
    rw [forward_loop_eq K cfg.diagonals (numLayers cfg) hlen,
      adjoint_loop_eq Kc cfg.diagonals (numLayers cfg) hlen]
    rcases hvalid with h0 | hhalf
    · have hnot : ¬(fracPart cfg.nLayers = 1 / 2) := by rw [h0]; norm_num
      rw [if_neg hnot, if_neg hnot]
      rw [loop_adjoint K Kc hK cfg.outC cfg.outH cfg.outW cfg.diagonals x y
        (by omega) (by omega) hyH hyW]
      rw [hC, hH, hW]
    · rw [if_pos hhalf, if_pos hhalf]
      rw [loop_adjoint K Kc hK cfg.outC cfg.outH cfg.outW cfg.diagonals _ y
        (by rw [sepTransform_H]; omega) (by rw [sepTransform_W]; omega) hyH hyW]
      rw [sep_adjoint K Kc hK cfg.outC cfg.outH cfg.outW x _
        (by omega) (by omega)
        ((foldr_adj_H Kc cfg.diagonals y).trans hyH)
        ((foldr_adj_W Kc cfg.diagonals y).trans hyW)]
      rw [hC, hH, hW]

/-- The concrete equisampled configuration constructs successfully and returns
the `fft` closures. -/
theorem buildOperator_cfgEqui :
    buildOperator cfgEqui = .ok
      (srForward cfgEqui "equisampling" (fft2, ifft2).1,
        srAdjoint cfgEqui "equisampling" (fft2, ifft2).2) := by
  unfold buildOperator
  rw [show srMode cfgEqui = .ok "equisampling" from rfl]
  simp only [Except.bind, bind]
  rw [if_neg (not_not_intro (Or.inl (by norm_num [fracPart, cfgEqui])))]
  rfl

/-- The concrete configuration has one diagonal draw per layer (zero each). -/
theorem hlen_cfgEqui : cfgEqui.diagonals.length = numLayers cfgEqui := by
  simp [numLayers, cfgEqui]

/-- C1 witness: the adjoint identity instantiated at a concrete equisampled
1×1×1 `fft` operator with no layers. -/
theorem c1_adjoint_exact_witness :
    ∃ Bx By, srForward cfgEqui "equisampling" (fft2, ifft2).1 zeroSmallT = .ok Bx ∧
      srAdjoint cfgEqui "equisampling" (fft2, ifft2).2 zeroSmallT = .ok By ∧
      innerProd 1 1 1 Bx zeroSmallT = innerProd 1 1 1 zeroSmallT By :=
  c1_adjoint_exact cfgEqui _ _ buildOperator_cfgEqui rfl hlen_cfgEqui
    zeroSmallT zeroSmallT rfl rfl

/-- C2: for every `(input_shape, output_shape)` pair accepted at construction,
with the padding amounts `ceil(diff/2)` on the top/left edge and
`floor(diff/2)` on the bottom/right edge per spatial axis (`diff` the absolute
per-axis size difference), `trimming(padding(x)) == x` exactly for every
tensor `x` of the smaller shape, for even, odd and zero size differences. -/
theorem c2_pad_trim_roundtrip (cfg : SRConfig) (mode : String)
    (_hmode : srMode cfg = .ok mode) (x : Tensor3)
    (_hH : x.H = min cfg.inH cfg.outH) (_hW : x.W = min cfg.inW cfg.outW) :
    Tensor3.TorchEq
      (trimming (changeLeft cfg) (changeRight cfg) (changeTop cfg)
        (changeBottom cfg)
        (padding (changeLeft cfg) (changeRight cfg) (changeTop cfg)
          (changeBottom cfg) x))
      x :=
  trim_pad _ _ _ _ x

/-- C2 witness: the round trip at input 2×3, output 5×4 (odd height
difference 3, odd width difference 1). -/
theorem c2_pad_trim_roundtrip_witness :
    Tensor3.TorchEq
      (trimming (changeLeft cfgOver) (changeRight cfgOver) (changeTop cfgOver)
        (changeBottom cfgOver)
        (padding (changeLeft cfgOver) (changeRight cfgOver) (changeTop cfgOver)
          (changeBottom cfgOver) zeroT23))
      zeroT23 :=
  c2_pad_trim_roundtrip cfgOver "oversampling" rfl zeroT23 rfl rfl

/-- C3: the forward closure computes exactly the spec's sequence — pad to the
middle shape when oversampling, one transform for a fractional half layer,
then per layer in increasing order multiply by diagonal `i` followed by the
transform, and finally trim when undersampling. -/
theorem c3_forward_structure (cfg : SRConfig) (mode : String)
    (T Tinv : Tensor3 → Tensor3)
    (_hmode : srMode cfg = .ok mode)
    (_hsel : selectTransform cfg.transform = .ok (T, Tinv))
    (hlen : cfg.diagonals.length = numLayers cfg)
    (x : Tensor3) (hx : x.shape = (cfg.inC, cfg.inH, cfg.inW)) :
    srForward cfg mode T x = .ok (specForwardPass cfg mode T x) := by
  unfold srForward specForwardPass
  rw [if_neg (fun hne => hne hx)]
  dsimp only
  rw [show (List.range (numLayers cfg)).foldl
      (fun a i => T (diagMul (cfg.diagonals.getD i zeroT) a))
      (if fracPart cfg.nLayers = 1 / 2 then
        T (if mode = "oversampling" then
          padding (changeLeft cfg) (changeRight cfg) (changeTop cfg)
            (changeBottom cfg) x
        else x)
      else if mode = "oversampling" then
        padding (changeLeft cfg) (changeRight cfg) (changeTop cfg)
          (changeBottom cfg) x
      else x)
      = cfg.diagonals.foldl (fun a d => T (diagMul d a))
      (if fracPart cfg.nLayers = 1 / 2 then
        T (if mode = "oversampling" then
          padding (changeLeft cfg) (changeRight cfg) (changeTop cfg)
            (changeBottom cfg) x
        else x)
      else if mode = "oversampling" then
        padding (changeLeft cfg) (changeRight cfg) (changeTop cfg)
          (changeBottom cfg) x
      else x) by
    rw [← hlen]
    exact foldl_range_getD cfg.diagonals (fun a d => T (diagMul d a)) _ zeroT]

/-- C3 witness: the forward pass of the concrete equisampled operator matches
the spec sequence. -/
theorem c3_forward_structure_witness :
    srForward cfgEqui "equisampling" fft2 zeroSmallT
      = .ok (specForwardPass cfgEqui "equisampling" fft2 zeroSmallT) :=
  c3_forward_structure cfgEqui "equisampling" fft2 ifft2 rfl rfl rfl
    zeroSmallT rfl

/-- C4 (code bug): constructing with `shared_weights=True` raises `NameError`
— the shared branch reads `diagonal_mode[i]` with `i` unbound — rather than
succeeding with one sampled diagonal repeated `floor(n_layers)` times. -/
theorem c4_shared_weights_name_error (L : ℕ) (modes : ℕ → String)
    (draw : ℕ → String → Tensor3) :
    buildDiagonals true L modes draw
      = .error "NameError: name i is not defined" := rfl

/-- C5 counterexample: with sensor `(+1)` and noise `(×2)` on the all-ones
input, the code's `sensor(noise(A x))` yields `3` while the claim's
`noise(sensor(A x))` yields `4`. -/
theorem c5_forward_order_counterexample :
    (prForward (fun t => t) addOne timesTwo oneT).data 0 0 0
      ≠ (timesTwo (addOne (prA (fun t => t) oneT))).data 0 0 0 := by
  simp only [prForward, prA, addOne, timesTwo, oneT, map_one]
  norm_num

/-- C5 amended: `forward(x)` applies `A`, then the measurement noise, then the
sensor nonlinearity — `forward(x) = sensor(noise(A(x)))` — with
`A(x) = |Bx|²` entrywise. -/
theorem c5_forward_order (B : Tensor3 → Tensor3)
    (sensor noise : Tensor3R → Tensor3R) (x : Tensor3) :
    prForward B sensor noise x = sensor (noise (prA B x)) ∧
      ∀ c i j, (prA B x).data c i j = Complex.abs ((B x).data c i j) ^ 2 :=
  ⟨rfl, fun _ _ _ => rfl⟩

/-- C8: every entry of the measurement `A(x) = |B(x)|²` is real (the codomain
is `ℝ` by construction of `abs().square()`) and nonnegative. -/
theorem c8_measurement_nonneg (B : Tensor3 → Tensor3) (x : Tensor3)
    (c i j : ℕ) :
    0 ≤ (prA B x).data c i j :=
  sq_nonneg _

/-- C9 counterexample: `n_layers = 0` passes the constructor's validity
assertion and is not the warning case, yet `get_A_squared_mean` raises
`IndexError` (the diagonal list is empty) instead of returning the second
moment. -/
theorem c9_counterexample :
    fracPart 0 = 0 ∧ (0 : ℚ) ≠ 1 / 2 ∧
      get_A_squared_mean 0 [] = .error "IndexError: list index out of range" := by
  refine ⟨by norm_num [fracPart], by norm_num, ?_⟩
  unfold get_A_squared_mean
  rw [if_neg (by norm_num)]

/-- C9 amended: the getter returns the not-applicable warning result exactly
when `n_layers == 0.5`, and for every other `n_layers` with at least one
diagonal layer it returns `Var(diag₀) + E[diag₀]²` computed from the first
per-layer diagonal. -/
theorem c9_get_A_squared_mean (nL : ℚ) (diags : List Tensor3) :
    (nL = 1 / 2 → get_A_squared_mean nL diags = .ok .warnNone) ∧
    (nL ≠ 1 / 2 → ∀ d rest, diags = d :: rest →
      get_A_squared_mean nL diags
        = .ok (.value ((tvar d : ℝ) + (tmean d) ^ 2))) ∧
    (get_A_squared_mean nL diags = .ok .warnNone ↔ nL = 1 / 2) := by
  refine ⟨fun h => ?_, fun h d rest hd => ?_, ?_⟩
  · unfold get_A_squared_mean
    rw [if_pos h]
  · unfold get_A_squared_mean
    rw [if_neg h, hd]
  · constructor
    · intro h
      by_contra hne
      unfold get_A_squared_mean at h
      rw [if_neg hne] at h
      cases diags with
      | nil => exact absurd h (by simp)
      | cons d rest => exact absurd (Except.ok.inj h) (by simp)
    · intro h
      unfold get_A_squared_mean
      rw [if_pos h]

/-- C9 witness: the warning case at `n_layers = 0.5` and the value case at
`n_layers = 1` with a single all-ones diagonal. -/
theorem c9_get_A_squared_mean_witness :
    get_A_squared_mean (1 / 2) [] = .ok .warnNone ∧
      get_A_squared_mean 1 [oneT]
        = .ok (.value ((tvar oneT : ℝ) + (tmean oneT) ^ 2)) :=
  ⟨(c9_get_A_squared_mean (1 / 2) []).1 rfl,
    (c9_get_A_squared_mean 1 [oneT]).2.1 (by norm_num) oneT [] rfl⟩

/-- C10: the forward closure fails its assertion exactly on inputs whose
trailing shape differs from `input_shape`, the adjoint closure on inputs whose
trailing shape differs from `output_shape`; with matching shapes neither
assertion fires and a value is returned. -/
theorem c10_shape_assertions (cfg : SRConfig)
    (A Aadj : Tensor3 → Except String Tensor3)
    (hbuild : buildOperator cfg = .ok (A, Aadj)) :
    (∀ x : Tensor3, x.shape ≠ (cfg.inC, cfg.inH, cfg.inW) →
      A x = .error "AssertionError: x does not have the correct shape") ∧
    (∀ x : Tensor3, x.shape = (cfg.inC, cfg.inH, cfg.inW) → ∃ v, A x = .ok v) ∧
    (∀ y : Tensor3, y.shape ≠ (cfg.outC, cfg.outH, cfg.outW) →
      Aadj y = .error "AssertionError: y does not have the correct shape") ∧
    (∀ y : Tensor3, y.shape = (cfg.outC, cfg.outH, cfg.outW) →
      ∃ v, Aadj y = .ok v) := by
  obtain ⟨mode, p, hm, hvalid, hsel, hA, hAadj⟩ :=
    buildOperator_ok cfg A Aadj hbuild
  subst hA hAadj
  refine ⟨fun x hx => ?_, fun x hx => ?_, fun y hy => ?_, fun y hy => ?_⟩
  · unfold srForward
    rw [if_pos hx]
  · unfold srForward
    rw [if_neg (fun hne => hne hx)]
    exact ⟨_, rfl⟩
  · unfold srAdjoint
    rw [if_pos hy]
  · unfold srAdjoint
    rw [if_neg (fun hne => hne hy)]
    exact ⟨_, rfl⟩

/-- C10 witness: a wrongly-shaped input trips the forward assertion of the
concrete operator, and the correctly-shaped input passes it. -/
theorem c10_shape_assertions_witness :
    srForward cfgEqui "equisampling" (fft2, ifft2).1 ⟨2, 1, 1, fun _ _ _ => 0⟩
      = .error "AssertionError: x does not have the correct shape" ∧
    ∃ v, srForward cfgEqui "equisampling" (fft2, ifft2).1 zeroSmallT = .ok v :=
  ⟨(c10_shape_assertions cfgEqui _ _ buildOperator_cfgEqui).1
      ⟨2, 1, 1, fun _ _ _ => 0⟩ (by decide),
    (c10_shape_assertions cfgEqui _ _ buildOperator_cfgEqui).2.1 zeroSmallT rfl⟩

/-! ### Second moments of the diagonal generator -/

/-- The `uniform_phase` entries have unit magnitude pointwise, so unit second
moment. -/
theorem smUniformPhase_eq : smUniformPhase = 1 := by
  unfold smUniformPhase uniformPhaseEntry
  simp only [Complex.abs_exp_ofReal_mul_I, one_pow]
  simp

/-- The second moment of a `uniform_magnitude` entry with scale `r` is
`r²/3`. -/
theorem smUniformMagnitude_eq (r : ℝ) : smUniformMagnitude r = r ^ 2 / 3 := by
  unfold smUniformMagnitude randMoment
  simp only [mul_pow]
  rw [intervalIntegral.integral_const_mul, integral_pow]
  norm_num
  ring

/-- The default `√3` scaling of `uniform_magnitude` attains unit second
moment. -/
theorem smUniformMagnitude_default : smUniformMagnitude (Real.sqrt 3) = 1 := by
  rw [smUniformMagnitude_eq, Real.sq_sqrt (by norm_num : (0:ℝ) ≤ 3)]
  norm_num

/-- The `gaussian` mode second moment is `1`. -/
theorem smGaussian_eq : smGaussian = 1 := by
  norm_num [smGaussian, randnComplexPartVar]

/-- The `laplace` mode second moment is `1`: two independent parts of
variance `2·(1/2)² = 1/2` each. -/
theorem smLaplace_eq : smLaplace = 1 := by
  norm_num [smLaplace, laplaceVar]

/-- The `student-t` mode second moment is `1` for `df > 2`: the code's scale
`sqrt((df-2)/df/2)` cancels the part variance `df/(df-2)`. -/
theorem smStudentT_eq (df : ℝ) (h : 2 < df) : smStudentT df = 1 := by
  unfold smStudentT studentTScale studentTVar
  rw [Real.sq_sqrt (div_nonneg (div_nonneg (by linarith) (by linarith)) (by norm_num))]
  have h0 : df ≠ 0 := ne_of_gt (by linarith)
  have h2 : df - 2 ≠ 0 := ne_of_gt (by linarith)
  field_simp
  ring

/-- `σ²` in closed form: `(1 + γ)^{-1/4}` squared is `(1 + γ)^{-1/2}`. -/
theorem mpMean_eq (m n : ℕ) :
    mpMean m n = (1 + (n : ℝ) / (m : ℝ)) ^ (-(1 / 2) : ℝ) := by
  unfold mpMean mpSigma mpGamma
  have hx : (0:ℝ) ≤ 1 + (n : ℝ) / (m : ℝ) := by positivity
  rw [show ((1 + (n : ℝ) / (m : ℝ)) ^ (-(1 / 4) : ℝ)) ^ 2
      = ((1 + (n : ℝ) / (m : ℝ)) ^ (-(1 / 4) : ℝ)) ^ ((2 : ℕ) : ℝ) from
    (Real.rpow_natCast _ 2).symm]
  rw [← Real.rpow_mul hx]
  norm_num

/-- The `marchenko` mode second moment in closed form: the sampler's
conditional mean `max(1, γ)·σ² = max(1, n/m)·(1 + n/m)^{-1/2}`, not `1`. -/
theorem smMarchenko_eq (m n : ℕ) (hm : 0 < m) (hn : 0 < n) :
    smMarchenko m n
      = max 1 ((n : ℝ) / (m : ℝ)) * (1 + (n : ℝ) / (m : ℝ)) ^ (-(1 / 2) : ℝ) := by
  have hmr : (0:ℝ) < (m : ℝ) := Nat.cast_pos.mpr hm
  have hnr : (0:ℝ) < (n : ℝ) := Nat.cast_pos.mpr hn
  unfold smMarchenko mpAcceptMass
  rw [mpMean_eq]
  rcases le_total ((n : ℝ) / (m : ℝ)) 1 with hle | hge
  · have h1 : (1:ℝ) ≤ (m : ℝ) / (n : ℝ) := (one_le_div hnr).mpr
      ((div_le_one hmr).mp hle)
    rw [min_eq_left h1, max_eq_left hle, div_one, one_mul]
  · have h1 : (m : ℝ) / (n : ℝ) ≤ 1 := (div_le_one hnr).mpr
      ((one_le_div hmr).mp hge)
    rw [min_eq_right h1, max_eq_right hge]
    rw [div_div_eq_mul_div]
    ring

/-- The `marchenko` second moment never equals `1` for integer aspect
parameters `m, n ≥ 1`: equality would force `γ·(1+γ)^{-1/2} = 1` with
`γ = n/m > 1`, i.e. `γ² = 1 + γ`, making the rational `n/m` equal to the
golden ratio `(1 + √5)/2` — impossible since `√5` is irrational — and for
`γ ≤ 1` the moment `(1+γ)^{-1/2}` is strictly below `1`. -/
theorem smMarchenko_ne_one (m n : ℕ) (hm : 0 < m) (hn : 0 < n) :
    smMarchenko m n ≠ 1 := by
  have hmr : (0:ℝ) < (m : ℝ) := Nat.cast_pos.mpr hm
  have hnr : (0:ℝ) < (n : ℝ) := Nat.cast_pos.mpr hn
  have hγ0 : (0:ℝ) < (n : ℝ) / (m : ℝ) := div_pos hnr hmr
  have hpos : (0:ℝ) < 1 + (n : ℝ) / (m : ℝ) := by linarith
  rw [smMarchenko_eq m n hm hn]
  rcases le_or_lt ((n : ℝ) / (m : ℝ)) 1 with hle | hlt
  · rw [max_eq_left hle, one_mul]
    exact ne_of_lt (Real.rpow_lt_one_of_one_lt_of_neg (by linarith) (by norm_num))
  · rw [max_eq_right (le_of_lt hlt)]
    intro hcon
    have hsqpow : ((1 + (n : ℝ) / (m : ℝ)) ^ (-(1 / 2) : ℝ)) ^ 2
        = (1 + (n : ℝ) / (m : ℝ))⁻¹ := by
      rw [show ((1 + (n : ℝ) / (m : ℝ)) ^ (-(1 / 2) : ℝ)) ^ 2
          = ((1 + (n : ℝ) / (m : ℝ)) ^ (-(1 / 2) : ℝ)) ^ ((2 : ℕ) : ℝ) from
        (Real.rpow_natCast _ 2).symm]
      rw [← Real.rpow_mul (le_of_lt hpos)]
      norm_num
      exact Real.rpow_neg_one _
    have hsq : ((n : ℝ) / (m : ℝ)) ^ 2 = 1 + (n : ℝ) / (m : ℝ) := by
      have h2 := congrArg (fun z : ℝ => z ^ 2) hcon
      simp only [mul_pow, one_pow] at h2
      rw [hsqpow] at h2
      have h3 : ((n : ℝ) / (m : ℝ)) ^ 2 * (1 + (n : ℝ) / (m : ℝ))⁻¹
          * (1 + (n : ℝ) / (m : ℝ)) = 1 * (1 + (n : ℝ) / (m : ℝ)) := by rw [h2]
      rw [inv_mul_cancel_right₀ (ne_of_gt hpos), one_mul] at h3
      exact h3
    have h5 : (2 * ((n : ℝ) / (m : ℝ)) - 1) ^ 2 = 5 := by nlinarith [hsq]
    have hge : (0:ℝ) ≤ 2 * ((n : ℝ) / (m : ℝ)) - 1 := by linarith
    have hs5 : Real.sqrt 5 = 2 * ((n : ℝ) / (m : ℝ)) - 1 := by
      rw [show (5:ℝ) = (2 * ((n : ℝ) / (m : ℝ)) - 1) ^ 2 from h5.symm,
        Real.sqrt_sq hge]
    have hirr : Irrational (Real.sqrt 5) := by
      have h := (by norm_num : Nat.Prime 5).irrational_sqrt
      simpa using h
    exact hirr ⟨2 * (n : ℚ) / (m : ℚ) - 1, by rw [hs5]; push_cast; ring⟩

/-- The `polar4` alphabet has unit magnitude in each of its four symbols, so
unit second moment. -/
theorem smPolar4_eq : smPolar4 = 1 := by
  unfold smPolar4 polar4Values
  rw [Fin.sum_univ_four]
  simp [Complex.abs_I]
  norm_num

/-- The second moment of one `uniform` part `√6·(U - 1/2)` is `1/2`. -/
theorem randMoment_uniformPart : randMoment uniformPartEntry = 1 / 2 := by
  unfold randMoment uniformPartEntry
  simp only [mul_pow, Real.sq_sqrt (by norm_num : (0:ℝ) ≤ 6)]
  rw [intervalIntegral.integral_const_mul]
  rw [show (∫ u in (0:ℝ)..1, (u - 1 / 2) ^ 2)
      = ∫ u in ((0:ℝ) - 1/2)..((1:ℝ) - 1/2), u ^ 2 from
    intervalIntegral.integral_comp_sub_right (fun u => u ^ 2) (1/2)]
  rw [integral_pow]
  norm_num

/-- The `uniform` mode second moment is `1`. -/
theorem smUniform_eq : smUniform = 1 := by
  unfold smUniform
  rw [randMoment_uniformPart]
  norm_num

/-- On `[0, 1/2]` the triangular sample is `√6·√u - √3` (the two branches
agree at the seam `u = 1/2`). -/
theorem tri_left (u : ℝ) (hu0 : 0 ≤ u) (hu : u ≤ 1 / 2) :
    triangular_distribution (Real.sqrt 3) u
      = Real.sqrt 6 * Real.sqrt u - Real.sqrt 3 := by
  unfold triangular_distribution
  rw [Real.sq_sqrt (by norm_num : (0:ℝ) ≤ 3)]
  rw [show u * 2 * 3 = 6 * u by ring, show (1 - u) * 2 * 3 = 6 * (1 - u) by ring]
  rw [Real.sqrt_mul (by norm_num : (0:ℝ) ≤ 6), Real.sqrt_mul (by norm_num : (0:ℝ) ≤ 6)]
  by_cases h : u < 1 / 2
  · rw [if_pos h]
    ring
  · have hu2 : u = 1 / 2 := le_antisymm hu (not_lt.mp h)
    subst hu2
    rw [if_neg h]
    norm_num
    rw [show Real.sqrt 6 * (Real.sqrt 2)⁻¹ = Real.sqrt 3 by
      rw [← Real.sqrt_inv, ← Real.sqrt_mul (by norm_num : (0:ℝ) ≤ 6)]
      norm_num]

/-- On `[1/2, 1]` the triangular sample is `√3 - √6·√(1-u)`. -/
theorem tri_right (u : ℝ) (hu : 1 / 2 ≤ u) :
    triangular_distribution (Real.sqrt 3) u
      = Real.sqrt 3 - Real.sqrt 6 * Real.sqrt (1 - u) := by
  unfold triangular_distribution
  rw [if_neg (not_lt.mpr hu)]
  rw [Real.sq_sqrt (by norm_num : (0:ℝ) ≤ 3)]
  rw [show (1 - u) * 2 * 3 = 6 * (1 - u) by ring]
  rw [Real.sqrt_mul (by norm_num : (0:ℝ) ≤ 6)]

/-- The squared triangular sample on the left half. -/
theorem tri_sq_left (u : ℝ) (hu0 : 0 ≤ u) (hu : u ≤ 1 / 2) :
    triangular_distribution (Real.sqrt 3) u ^ 2
      = 3 - 2 * (Real.sqrt 18 * Real.sqrt u) + 6 * u := by
  rw [tri_left u hu0 hu]
  have e : (Real.sqrt 6 * Real.sqrt u - Real.sqrt 3) ^ 2
      = Real.sqrt 6 ^ 2 * Real.sqrt u ^ 2
        - 2 * ((Real.sqrt 6 * Real.sqrt 3) * Real.sqrt u) + Real.sqrt 3 ^ 2 := by
    ring
  rw [e, Real.sq_sqrt (by norm_num : (0:ℝ) ≤ 6), Real.sq_sqrt hu0,
    Real.sq_sqrt (by norm_num : (0:ℝ) ≤ 3),
    ← Real.sqrt_mul (by norm_num : (0:ℝ) ≤ 6) 3]
  norm_num
  ring

/-- The squared triangular sample on the right half. -/
theorem tri_sq_right (u : ℝ) (hu : 1 / 2 ≤ u) (hu1 : u ≤ 1) :
    triangular_distribution (Real.sqrt 3) u ^ 2
      = 3 - 2 * (Real.sqrt 18 * Real.sqrt (1 - u)) + 6 * (1 - u) := by
  rw [tri_right u hu]
  have h1u : (0:ℝ) ≤ 1 - u := by linarith
  have e : (Real.sqrt 3 - Real.sqrt 6 * Real.sqrt (1 - u)) ^ 2
      = Real.sqrt 6 ^ 2 * Real.sqrt (1 - u) ^ 2
        - 2 * ((Real.sqrt 6 * Real.sqrt 3) * Real.sqrt (1 - u)) + Real.sqrt 3 ^ 2 := by
    ring
  rw [e, Real.sq_sqrt (by norm_num : (0:ℝ) ≤ 6), Real.sq_sqrt h1u,
    Real.sq_sqrt (by norm_num : (0:ℝ) ≤ 3),
    ← Real.sqrt_mul (by norm_num : (0:ℝ) ≤ 6) 3]
  norm_num
  ring

/-- The triangular sampler is continuous in the uniform seed. -/
theorem triangular_continuous :
    Continuous (triangular_distribution (Real.sqrt 3)) := by
  unfold triangular_distribution
  refine Continuous.if (fun a ha => ?_) ?_ ?_
  · have ha2 : a = 1 / 2 := by
      have : frontier {x : ℝ | x < 1 / 2} = {(1 / 2 : ℝ)} := frontier_Iio
      rw [this] at ha
      simpa using ha
    subst ha2
    rw [Real.sq_sqrt (by norm_num : (0:ℝ) ≤ 3)]
    norm_num
  · have : Continuous fun u : ℝ => u * 2 * Real.sqrt 3 ^ 2 := by
      exact (continuous_id.mul continuous_const).mul continuous_const
    exact continuous_const.add (Real.continuous_sqrt.comp this)
  · have : Continuous fun u : ℝ => (1 - u) * 2 * Real.sqrt 3 ^ 2 := by
      exact (((continuous_const.sub continuous_id).mul continuous_const).mul
        continuous_const)
    exact continuous_const.sub (Real.continuous_sqrt.comp this)

/-- The power-rule value of `∫₀^{1/2} √u du`. -/
theorem integral_sqrt_half :
    ∫ u in (0:ℝ)..(1/2 : ℝ), Real.sqrt u
      = ((1/2 : ℝ) ^ ((3:ℝ)/2)) / (3/2) := by
  simp only [Real.sqrt_eq_rpow]
  rw [integral_rpow (Or.inl (by norm_num))]
  rw [show (1:ℝ)/2 + 1 = (3:ℝ)/2 by norm_num]
  rw [Real.zero_rpow (by norm_num : (3:ℝ)/2 ≠ 0)]
  ring

/-- The closed form `√18 · (1/2)^{3/2} = 3/2`. -/
theorem sqrt18_key : Real.sqrt 18 * ((1/2 : ℝ) ^ ((3:ℝ)/2)) = 3 / 2 := by
  have h1 : ((1/2 : ℝ)) ^ ((3:ℝ)/2) = Real.sqrt (1/8) := by
    rw [show ((3:ℝ)/2) = (3 : ℝ) * (1/2) by norm_num]
    rw [Real.rpow_mul (by norm_num : (0:ℝ) ≤ 1/2)]
    rw [show ((1/2:ℝ) ^ (3:ℝ)) = 1/8 by
      rw [show (3:ℝ) = ((3:ℕ):ℝ) by norm_num, Real.rpow_natCast]
      norm_num]
    rw [← Real.sqrt_eq_rpow]
  rw [h1, ← Real.sqrt_mul (by norm_num : (0:ℝ) ≤ 18)]
  rw [show (18:ℝ) * (1/8) = (3/2)^2 by norm_num]
  exact Real.sqrt_sq (by norm_num)

/-- The middle cross term of the left-piece integral. -/
theorem integral_cross_term :
    ∫ u in (0:ℝ)..(1/2 : ℝ), 2 * (Real.sqrt 18 * Real.sqrt u) = 2 := by
  simp only [← mul_assoc]
  rw [intervalIntegral.integral_const_mul, integral_sqrt_half]
  rw [show (2 * Real.sqrt 18) * ((1/2:ℝ)^((3:ℝ)/2) / (3/2))
      = (Real.sqrt 18 * (1/2:ℝ)^((3:ℝ)/2)) * (4/3) by ring]
  rw [sqrt18_key]
  norm_num

/-- The value of the left piece of the triangular second-moment integral. -/
theorem integral_left_piece :
    (∫ u in (0:ℝ)..(1/2 : ℝ),
      (3 - 2 * (Real.sqrt 18 * Real.sqrt u) + 6 * u)) = 1/4 := by
  have c1 : Continuous fun _ : ℝ => (3:ℝ) := continuous_const
  have cS : Continuous fun u : ℝ => 2 * (Real.sqrt 18 * Real.sqrt u) :=
    continuous_const.mul (continuous_const.mul Real.continuous_sqrt)
  have cU : Continuous fun u : ℝ => 6 * u := continuous_const.mul continuous_id
  rw [intervalIntegral.integral_add ((c1.sub cS).intervalIntegrable _ _)
    (cU.intervalIntegrable _ _)]
  rw [intervalIntegral.integral_sub (c1.intervalIntegrable _ _)
    (cS.intervalIntegrable _ _)]
  rw [intervalIntegral.integral_const, integral_cross_term,
    intervalIntegral.integral_const_mul, integral_id]
  norm_num

/-- The second moment of one triangular part is `1/2`. -/
theorem randMoment_triangular :
    randMoment (triangular_distribution (Real.sqrt 3)) = 1 / 2 := by
  unfold randMoment
  have hI1 : IntervalIntegrable
      (fun u => triangular_distribution (Real.sqrt 3) u ^ 2)
      MeasureTheory.volume 0 (1/2) :=
    ((triangular_continuous.pow 2).intervalIntegrable _ _)
  have hI2 : IntervalIntegrable
      (fun u => triangular_distribution (Real.sqrt 3) u ^ 2)
      MeasureTheory.volume (1/2) 1 :=
    ((triangular_continuous.pow 2).intervalIntegrable _ _)
  rw [← intervalIntegral.integral_add_adjacent_intervals hI1 hI2]
  have e1 : (∫ u in (0:ℝ)..(1/2:ℝ),
      triangular_distribution (Real.sqrt 3) u ^ 2) = 1/4 := by
    have hEq : Set.EqOn (fun u => triangular_distribution (Real.sqrt 3) u ^ 2)
        (fun u => 3 - 2 * (Real.sqrt 18 * Real.sqrt u) + 6 * u)
        (Set.uIcc (0:ℝ) (1/2)) := by
      intro u hu
      rw [Set.uIcc_of_le (by norm_num : (0:ℝ) ≤ 1/2)] at hu
      exact tri_sq_left u hu.1 hu.2
    rw [intervalIntegral.integral_congr hEq]
    exact integral_left_piece
  have e2 : (∫ u in (1/2:ℝ)..(1:ℝ),
      triangular_distribution (Real.sqrt 3) u ^ 2) = 1/4 := by
    have hEq : Set.EqOn (fun u => triangular_distribution (Real.sqrt 3) u ^ 2)
        (fun u => 3 - 2 * (Real.sqrt 18 * Real.sqrt (1 - u)) + 6 * (1 - u))
        (Set.uIcc (1/2:ℝ) 1) := by
      intro u hu
      rw [Set.uIcc_of_le (by norm_num : (1/2:ℝ) ≤ 1)] at hu
      exact tri_sq_right u hu.1 hu.2
    rw [intervalIntegral.integral_congr hEq]
    rw [show (fun u : ℝ => 3 - 2 * (Real.sqrt 18 * Real.sqrt (1 - u)) + 6 * (1 - u))
        = fun u : ℝ =>
          (fun v : ℝ => 3 - 2 * (Real.sqrt 18 * Real.sqrt v) + 6 * v) (1 - u) from
      rfl]
    rw [intervalIntegral.integral_comp_sub_left
      (fun v : ℝ => 3 - 2 * (Real.sqrt 18 * Real.sqrt v) + 6 * v) 1]
    rw [show (1:ℝ) - 1 = 0 by norm_num, show (1:ℝ) - 1/2 = 1/2 by norm_num]
    exact integral_left_piece
  rw [e1, e2]
  norm_num

/-- The `triangular` mode second moment is `1`. -/
theorem smTriangular_eq : smTriangular = 1 := by
  unfold smTriangular
  rw [randMoment_triangular]
  norm_num


/-- Dispatcher value for the `uniform_phase` mode. -/
theorem entrySecondMoment_uniform_phase (cfg : DistriConfig) :
    entrySecondMoment "uniform_phase" cfg = .ok smUniformPhase := by
  unfold entrySecondMoment
  rw [if_pos (show ("uniform_phase" : String) = "uniform_phase" from rfl)]

/-- Dispatcher value for the `gaussian` mode. -/
theorem entrySecondMoment_gaussian (cfg : DistriConfig) :
    entrySecondMoment "gaussian" cfg = .ok smGaussian := by
  unfold entrySecondMoment
  rw [if_neg (show ¬(("gaussian" : String) = "uniform_phase") by decide)]
  rw [if_neg (show ¬(("gaussian" : String) = "uniform_magnitude") by decide)]
  rw [if_pos (show ("gaussian" : String) = "gaussian" from rfl)]

/-- Dispatcher value for the `laplace` mode. -/
theorem entrySecondMoment_laplace (cfg : DistriConfig) :
    entrySecondMoment "laplace" cfg = .ok smLaplace := by
  unfold entrySecondMoment
  rw [if_neg (show ¬(("laplace" : String) = "uniform_phase") by decide)]
  rw [if_neg (show ¬(("laplace" : String) = "uniform_magnitude") by decide)]
  rw [if_neg (show ¬(("laplace" : String) = "gaussian") by decide)]
  rw [if_pos (show ("laplace" : String) = "laplace" from rfl)]

/-- Dispatcher value for the `student-t` mode. -/
theorem entrySecondMoment_student_t (cfg : DistriConfig) :
    entrySecondMoment "student-t" cfg = .ok (smStudentT cfg.degree_of_freedom) := by
  unfold entrySecondMoment
  rw [if_neg (show ¬(("student-t" : String) = "uniform_phase") by decide)]
  rw [if_neg (show ¬(("student-t" : String) = "uniform_magnitude") by decide)]
  rw [if_neg (show ¬(("student-t" : String) = "gaussian") by decide)]
  rw [if_neg (show ¬(("student-t" : String) = "laplace") by decide)]
  rw [if_pos (show ("student-t" : String) = "student-t" from rfl)]

/-- Dispatcher value for the `marchenko` mode. -/
theorem entrySecondMoment_marchenko (cfg : DistriConfig) :
    entrySecondMoment "marchenko" cfg = .ok (smMarchenko cfg.m cfg.n) := by
  unfold entrySecondMoment
  rw [if_neg (show ¬(("marchenko" : String) = "uniform_phase") by decide)]
  rw [if_neg (show ¬(("marchenko" : String) = "uniform_magnitude") by decide)]
  rw [if_neg (show ¬(("marchenko" : String) = "gaussian") by decide)]
  rw [if_neg (show ¬(("marchenko" : String) = "laplace") by decide)]
  rw [if_neg (show ¬(("marchenko" : String) = "student-t") by decide)]
  rw [if_pos (show ("marchenko" : String) = "marchenko" from rfl)]

/-- Dispatcher value for the `uniform` mode. -/
theorem entrySecondMoment_uniform (cfg : DistriConfig) :
    entrySecondMoment "uniform" cfg = .ok smUniform := by
  unfold entrySecondMoment
  rw [if_neg (show ¬(("uniform" : String) = "uniform_phase") by decide)]
  rw [if_neg (show ¬(("uniform" : String) = "uniform_magnitude") by decide)]
  rw [if_neg (show ¬(("uniform" : String) = "gaussian") by decide)]
  rw [if_neg (show ¬(("uniform" : String) = "laplace") by decide)]
  rw [if_neg (show ¬(("uniform" : String) = "student-t") by decide)]
  rw [if_neg (show ¬(("uniform" : String) = "marchenko") by decide)]
  rw [if_pos (show ("uniform" : String) = "uniform" from rfl)]

/-- Dispatcher value for the `triangular` mode. -/
theorem entrySecondMoment_triangular (cfg : DistriConfig) :
    entrySecondMoment "triangular" cfg = .ok smTriangular := by
  unfold entrySecondMoment
  rw [if_neg (show ¬(("triangular" : String) = "uniform_phase") by decide)]
  rw [if_neg (show ¬(("triangular" : String) = "uniform_magnitude") by decide)]
  rw [if_neg (show ¬(("triangular" : String) = "gaussian") by decide)]
  rw [if_neg (show ¬(("triangular" : String) = "laplace") by decide)]
  rw [if_neg (show ¬(("triangular" : String) = "student-t") by decide)]
  rw [if_neg (show ¬(("triangular" : String) = "marchenko") by decide)]
  rw [if_neg (show ¬(("triangular" : String) = "uniform") by decide)]
  rw [if_pos (show ("triangular" : String) = "triangular" from rfl)]

/-- Dispatcher value for the `polar4` mode. -/
theorem entrySecondMoment_polar4 (cfg : DistriConfig) :
    entrySecondMoment "polar4" cfg = .ok smPolar4 := by
  unfold entrySecondMoment
  rw [if_neg (show ¬(("polar4" : String) = "uniform_phase") by decide)]
  rw [if_neg (show ¬(("polar4" : String) = "uniform_magnitude") by decide)]
  rw [if_neg (show ¬(("polar4" : String) = "gaussian") by decide)]
  rw [if_neg (show ¬(("polar4" : String) = "laplace") by decide)]
  rw [if_neg (show ¬(("polar4" : String) = "student-t") by decide)]
  rw [if_neg (show ¬(("polar4" : String) = "marchenko") by decide)]
  rw [if_neg (show ¬(("polar4" : String) = "uniform") by decide)]
  rw [if_neg (show ¬(("polar4" : String) = "triangular") by decide)]
  rw [if_pos (show ("polar4" : String) = "polar4" from rfl)]

/-- Dispatcher value for the `uniform_magnitude` mode. -/
theorem entrySecondMoment_uniform_magnitude (cfg : DistriConfig) :
    entrySecondMoment "uniform_magnitude" cfg
      = .ok (match cfg.range with
        | some r => if r ≠ 0 then smUniformMagnitude r
                    else smUniformMagnitude (Real.sqrt 3)
        | none => smUniformMagnitude (Real.sqrt 3)) := by
  unfold entrySecondMoment
  rw [if_neg (show ¬(("uniform_magnitude" : String) = "uniform_phase") by decide)]
  rw [if_pos (show ("uniform_magnitude" : String) = "uniform_magnitude" from rfl)]

/-- C6 counterexample: in `uniform_magnitude` mode with `config.range = 2`,
the sampled entry `2·U` has second moment `4/3 ≠ 1`, falsifying the claim that
every mode (including the range-bounded variant) is normalized to `1`. -/
theorem c6_counterexample :
    entrySecondMoment "uniform_magnitude" ⟨some 2, 3, 1, 1⟩ = .ok (4 / 3) ∧
      (4 / 3 : ℝ) ≠ 1 := by
  constructor
  · rw [entrySecondMoment_uniform_magnitude]
    show Except.ok (if (2:ℝ) ≠ 0 then smUniformMagnitude 2
      else smUniformMagnitude (Real.sqrt 3)) = _
    rw [if_pos (by norm_num : (2:ℝ) ≠ 0), smUniformMagnitude_eq]
    norm_num
  · norm_num

/-- C6 amended: every `generate_diagonal` mode except two is normalized to
`E[|entry|²] = 1` (modes with independent real and imaginary parts get `1/2`
from each part); the exceptions are the `config.range`-bounded
`uniform_magnitude` variant, whose second moment is `range²/3` (`1` only when
`range = √3`), and the `marchenko` mode, whose second moment is the rejection
sampler's conditional mean `max(1, n/m)·(1 + n/m)^{-1/2}` — `σ²` for
`n ≤ m` and `γ·σ²` for `n > m`, where the continuous part the sampler draws
from has mass `1/γ` — which never equals `1` for `m, n ≥ 1` (that would make
`n/m` the golden ratio). -/
theorem c6_second_moments (cfg : DistriConfig) (hrange : cfg.range = none) :
    entrySecondMoment "uniform_phase" cfg = .ok 1 ∧
    entrySecondMoment "uniform_magnitude" cfg = .ok 1 ∧
    entrySecondMoment "gaussian" cfg = .ok 1 ∧
    entrySecondMoment "laplace" cfg = .ok 1 ∧
    (2 < cfg.degree_of_freedom → entrySecondMoment "student-t" cfg = .ok 1) ∧
    entrySecondMoment "uniform" cfg = .ok 1 ∧
    entrySecondMoment "triangular" cfg = .ok 1 ∧
    entrySecondMoment "polar4" cfg = .ok 1 ∧
    (∀ r : ℝ, r ≠ 0 → ∀ cfg2 : DistriConfig, cfg2.range = some r →
      entrySecondMoment "uniform_magnitude" cfg2 = .ok (r ^ 2 / 3)) ∧
    (0 < cfg.m → 0 < cfg.n → entrySecondMoment "marchenko" cfg
      = .ok (max 1 ((cfg.n : ℝ) / (cfg.m : ℝ))
          * (1 + (cfg.n : ℝ) / (cfg.m : ℝ)) ^ (-(1/2) : ℝ))) ∧
    (0 < cfg.m → 0 < cfg.n → entrySecondMoment "marchenko" cfg ≠ .ok 1) := by
  refine ⟨?_, ?_, ?_, ?_, fun hdf => ?_, ?_, ?_, ?_,
    fun r hr cfg2 hr2 => ?_, fun hm hn => ?_, fun hm hn hcontra => ?_⟩
  · rw [entrySecondMoment_uniform_phase, smUniformPhase_eq]
  · rw [entrySecondMoment_uniform_magnitude, hrange]
    show Except.ok (smUniformMagnitude (Real.sqrt 3)) = _
    rw [smUniformMagnitude_default]
  · rw [entrySecondMoment_gaussian, smGaussian_eq]
  · rw [entrySecondMoment_laplace, smLaplace_eq]
  · rw [entrySecondMoment_student_t, smStudentT_eq cfg.degree_of_freedom hdf]
  · rw [entrySecondMoment_uniform, smUniform_eq]
  · rw [entrySecondMoment_triangular, smTriangular_eq]
  · rw [entrySecondMoment_polar4, smPolar4_eq]
  · rw [entrySecondMoment_uniform_magnitude, hr2]
    show Except.ok (if r ≠ 0 then smUniformMagnitude r
      else smUniformMagnitude (Real.sqrt 3)) = _
    rw [if_pos hr, smUniformMagnitude_eq]
  · rw [entrySecondMoment_marchenko, smMarchenko_eq cfg.m cfg.n hm hn]
  · rw [entrySecondMoment_marchenko] at hcontra
    exact absurd (Except.ok.inj hcontra) (smMarchenko_ne_one _ _ hm hn)

/-- C6 witness: the amended normalization statement at a concrete config with
no `range` field, three degrees of freedom and undersampling aspect
`m = 1 < n = 2`, where the marchenko moment is `2·3^{-1/2} ≠ 1`. -/
theorem c6_second_moments_witness :
    entrySecondMoment "uniform_phase" ⟨none, 3, 1, 2⟩ = .ok 1 ∧
      entrySecondMoment "student-t" ⟨none, 3, 1, 2⟩ = .ok 1 ∧
      entrySecondMoment "uniform_magnitude" ⟨some 2, 3, 1, 2⟩ = .ok ((2:ℝ) ^ 2 / 3) ∧
      entrySecondMoment "marchenko" ⟨none, 3, 1, 2⟩
        = .ok (max 1 (((2:ℕ) : ℝ) / ((1:ℕ) : ℝ))
            * (1 + ((2:ℕ) : ℝ) / ((1:ℕ) : ℝ)) ^ (-(1/2) : ℝ)) ∧
      entrySecondMoment "marchenko" ⟨none, 3, 1, 2⟩ ≠ .ok 1 :=
  ⟨(c6_second_moments ⟨none, 3, 1, 2⟩ rfl).1,
    (c6_second_moments ⟨none, 3, 1, 2⟩ rfl).2.2.2.2.1 (by norm_num),
    (c6_second_moments ⟨none, 3, 1, 2⟩ rfl).2.2.2.2.2.2.2.2.1 2 (by norm_num)
      ⟨some 2, 3, 1, 2⟩ rfl,
    (c6_second_moments ⟨none, 3, 1, 2⟩ rfl).2.2.2.2.2.2.2.2.2.1
      (by norm_num) (by norm_num),
    (c6_second_moments ⟨none, 3, 1, 2⟩ rfl).2.2.2.2.2.2.2.2.2.2
      (by norm_num) (by norm_num)⟩

/-! ### Inversion of the supported transforms -/

/-- A geometric sum of a nontrivial root of unity vanishes. -/
theorem geom_vanish {c : ℂ} {N : ℕ} (hc : c ≠ 1) (hN : c ^ N = 1) :
    ∑ k ∈ range N, c ^ k = 0 := by
  rw [geom_sum_eq hc, hN]
  simp

/-- One term of the inverse-DFT/DFT composition as a geometric power. -/
theorem fourier_term (N a i u : ℕ) :
    fourierKernelInv N a u * fourierKernel N u i
      = (Complex.exp (2 * (Real.pi : ℂ) * ((a : ℂ) - (i : ℂ)) / (N : ℂ)
          * Complex.I)) ^ u / (N : ℂ) := by
  unfold fourierKernel fourierKernelInv
  rw [div_mul_div_comm, ← Complex.exp_add, ← Complex.exp_nat_mul]
  congr 1
  · congr 1
    push_cast
    ring
  · rw [← Complex.ofReal_mul, Real.mul_self_sqrt (Nat.cast_nonneg N)]
    push_cast
    rfl

/-- Cancelling the common factor `2πI` in an `exp_eq_one` witness. -/
theorem exp_ratio_int (z : ℂ) (n : ℤ) (h : z * (2 * (Real.pi : ℂ) * Complex.I)
    = (n : ℂ) * (2 * (Real.pi : ℂ) * Complex.I)) : z = (n : ℂ) := by
  have h2 : (2 * (Real.pi : ℂ) * Complex.I) ≠ 0 :=
    mul_ne_zero (mul_ne_zero two_ne_zero
      (Complex.ofReal_ne_zero.mpr Real.pi_ne_zero)) Complex.I_ne_zero
  exact mul_right_cancel₀ h2 h

/-- Orthogonality of the inverse-DFT and DFT kernels: the composed row-column
sums are the identity matrix entries. -/
theorem fourier_orth (N : ℕ) (hN : 0 < N) (a i : ℕ) (ha : a < N) (hi : i < N) :
    (∑ u ∈ range N, fourierKernelInv N a u * fourierKernel N u i)
      = if a = i then 1 else 0 := by
  have hNne : (N : ℂ) ≠ 0 := Nat.cast_ne_zero.mpr hN.ne'
  simp only [fourier_term]
  rw [← Finset.sum_div]
  by_cases hai : a = i
  · subst hai
    rw [if_pos rfl]
    rw [show (2 * (Real.pi : ℂ) * ((a : ℂ) - (a : ℂ)) / (N : ℂ) * Complex.I)
        = 0 by ring]
    rw [Complex.exp_zero]
    simp only [one_pow, Finset.sum_const, card_range, nsmul_eq_mul, mul_one]
    exact div_self hNne
  · rw [if_neg hai]
    have hrN : (Complex.exp (2 * (Real.pi : ℂ) * ((a : ℂ) - (i : ℂ)) / (N : ℂ)
        * Complex.I)) ^ N = 1 := by
      rw [← Complex.exp_nat_mul]
      rw [show (N : ℂ) * (2 * (Real.pi : ℂ) * ((a : ℂ) - (i : ℂ)) / (N : ℂ)
          * Complex.I) = (((a : ℤ) - (i : ℤ) : ℤ) : ℂ)
            * (2 * (Real.pi : ℂ) * Complex.I) by
        push_cast
        field_simp
        ring]
      exact Complex.exp_int_mul_two_pi_mul_I _
    have hr1 : Complex.exp (2 * (Real.pi : ℂ) * ((a : ℂ) - (i : ℂ)) / (N : ℂ)
        * Complex.I) ≠ 1 := by
      intro hcon
      rw [Complex.exp_eq_one_iff] at hcon
      obtain ⟨n, hn⟩ := hcon
      have hn' : ((a : ℂ) - (i : ℂ)) / (N : ℂ) = (n : ℂ) := by
        refine exp_ratio_int _ n ?_
        rw [← hn]
        ring
      have hframe : ((a : ℂ) - (i : ℂ)) = (n : ℂ) * (N : ℂ) := by
        field_simp at hn'
        linear_combination hn'
      have hint : (a : ℤ) - (i : ℤ) = n * (N : ℤ) := by
        exact_mod_cast hframe
      have hNb : (1 : ℤ) ≤ (N : ℤ) := by exact_mod_cast hN
      rcases lt_trichotomy n 0 with hlt | heq | hgt
      · have hle : n ≤ -1 := by omega
        have hmul : n * (N : ℤ) ≤ -1 * (N : ℤ) :=
          mul_le_mul_of_nonneg_right hle (by omega)
        omega
      · subst heq
        simp at hint
        exact hai (by omega)
      · have hge : 1 ≤ n := by omega
        have hmul : 1 * (N : ℤ) ≤ n * (N : ℤ) :=
          mul_le_mul_of_nonneg_right hge (by omega)
        omega
    rw [geom_vanish hr1 hrN]
    simp

/-- Exchange of a weighted double sum used to compose separable transforms. -/
theorem sum_exchange {α β : Type*} (s : Finset α) (t : Finset β) (M : α → ℂ)
    (L : α → β → ℂ) (f : β → ℂ) :
    ∑ p ∈ s, M p * ∑ q ∈ t, L p q * f q
      = ∑ q ∈ t, (∑ p ∈ s, M p * L p q) * f q := by
  simp only [Finset.mul_sum, Finset.sum_mul]
  rw [Finset.sum_comm]
  exact Finset.sum_congr rfl fun q _ => Finset.sum_congr rfl fun p _ => by ring

/-- The entry formula for the composition of two separable transforms. -/
theorem sep_comp_apply (K1 K2 : ℕ → ℕ → ℕ → ℂ) (x : Tensor3) (c a b : ℕ) :
    (sepTransform K1 (sepTransform K2 x)).data c a b
      = ∑ i ∈ range x.H, ∑ j ∈ range x.W,
          ((∑ u ∈ range x.H, K1 x.H a u * K2 x.H u i)
            * (∑ v ∈ range x.W, K1 x.W b v * K2 x.W v j)) * x.data c i j := by
  show (∑ u ∈ range x.H, ∑ v ∈ range x.W, K1 x.H a u * K1 x.W b v *
      (∑ i ∈ range x.H, ∑ j ∈ range x.W, K2 x.H u i * K2 x.W v j * x.data c i j))
    = _
  rw [← Finset.sum_product']
  rw [show (∑ p ∈ (range x.H) ×ˢ (range x.W), K1 x.H a p.1 * K1 x.W b p.2 *
      (∑ i ∈ range x.H, ∑ j ∈ range x.W,
        K2 x.H p.1 i * K2 x.W p.2 j * x.data c i j))
    = ∑ p ∈ (range x.H) ×ˢ (range x.W), (fun p => K1 x.H a p.1 * K1 x.W b p.2) p *
      (∑ q ∈ (range x.H) ×ˢ (range x.W),
        (fun p q => K2 x.H p.1 q.1 * K2 x.W p.2 q.2) p q *
          (fun q => x.data c q.1 q.2) q) from
    Finset.sum_congr rfl fun p _ => by
      rw [← Finset.sum_product']]
  rw [sum_exchange]
  rw [Finset.sum_product]
  refine Finset.sum_congr rfl fun i _ => Finset.sum_congr rfl fun j _ => ?_
  congr 1
  rw [Finset.sum_product, Finset.sum_mul_sum]
  exact Finset.sum_congr rfl fun u _ => Finset.sum_congr rfl fun v _ => by ring

/-- Composing two separable transforms whose 1-D kernels are mutually inverse
restores every in-range entry. -/
theorem sep_inverse (K1 K2 : ℕ → ℕ → ℕ → ℂ)
    (horth : ∀ N, 0 < N → ∀ a i, a < N → i < N →
      (∑ u ∈ range N, K1 N a u * K2 N u i) = if a = i then 1 else 0)
    (x : Tensor3) (c a b : ℕ) (ha : a < x.H) (hb : b < x.W) :
    (sepTransform K1 (sepTransform K2 x)).data c a b = x.data c a b := by
  have hH : 0 < x.H := lt_of_le_of_lt (Nat.zero_le a) ha
  have hW : 0 < x.W := lt_of_le_of_lt (Nat.zero_le b) hb
  rw [sep_comp_apply]
  rw [Finset.sum_eq_single a]
  · rw [Finset.sum_eq_single b]
    · rw [horth x.H hH a a ha ha, horth x.W hW b b hb hb]
      simp
    · intro j hj hjb
      rw [horth x.W hW b j hb (mem_range.mp hj)]
      rw [if_neg fun hbj => hjb hbj.symm]
      ring
    · intro hb'
      exact absurd (mem_range.mpr hb) hb'
  · intro i hi hia
    refine Finset.sum_eq_zero fun j _ => ?_
    rw [horth x.H hH a i ha (mem_range.mp hi)]
    rw [if_neg fun hai => hia hai.symm]
    ring
  · intro ha'
    exact absurd (mem_range.mpr ha) ha'

/-- The orthonormal 2-D inverse DFT inverts the orthonormal 2-D DFT. -/
theorem ifft2_fft2 (x : Tensor3) : Tensor3.TorchEq (ifft2 (fft2 x)) x :=
  ⟨rfl, rfl, rfl, fun c _ a ha b hb =>
    sep_inverse fourierKernelInv fourierKernel fourier_orth x c a b ha hb⟩

/-- The field identity behind the odd-frequency cosine sum. -/
theorem odd_geom_algebra (c : ℂ) (hc0 : c ≠ 0) (hc1 : c ≠ 1) :
    ((-1 - 1) / (c - 1) + ((-1)⁻¹ - 1) / (c⁻¹ - 1)) / 2 = 1 := by
  have h2 : c⁻¹ - 1 = (1 - c) / c := by field_simp
  rw [h2]
  have h3 : (1 : ℂ) - c ≠ 0 := sub_ne_zero.mpr (Ne.symm hc1)
  have h4 : c - 1 ≠ 0 := sub_ne_zero.mpr hc1
  field_simp
  ring

/-- A cosine sum as a pair of geometric exponential sums. -/
theorem cos_sum_split (N : ℕ) (z : ℂ) :
    ∑ k ∈ range N, Complex.cos ((k : ℂ) * z)
      = ((∑ k ∈ range N, Complex.exp (z * Complex.I) ^ k)
        + ∑ k ∈ range N, Complex.exp (-z * Complex.I) ^ k) / 2 := by
  rw [← Finset.sum_add_distrib, Finset.sum_div]
  refine Finset.sum_congr rfl fun k _ => ?_
  rw [← Complex.exp_nat_mul, ← Complex.exp_nat_mul, Complex.cos]
  rw [show (k : ℂ) * (z * Complex.I) = (k : ℂ) * z * Complex.I by ring,
    show (k : ℂ) * (-z * Complex.I) = -((k : ℂ) * z) * Complex.I by ring]

/-- The `N`-th power of the ratio `exp(πe/N·I)`. -/
theorem exp_pi_pow_N (N : ℕ) (hN : 0 < N) (e : ℤ) :
    Complex.exp ((Real.pi : ℂ) * (e : ℂ) / (N : ℂ) * Complex.I) ^ N
      = Complex.exp ((Real.pi : ℂ) * (e : ℂ) * Complex.I) := by
  rw [← Complex.exp_nat_mul]
  congr 1
  have hNne : (N : ℂ) ≠ 0 := Nat.cast_ne_zero.mpr hN.ne'
  field_simp

/-- For even `e`, `exp(πe·I) = 1`. -/
theorem exp_pi_even {e : ℤ} (he : 2 ∣ e) :
    Complex.exp ((Real.pi : ℂ) * (e : ℂ) * Complex.I) = 1 := by
  obtain ⟨t, rfl⟩ := he
  rw [show (Real.pi : ℂ) * ((2 * t : ℤ) : ℂ) * Complex.I
      = (t : ℂ) * (2 * (Real.pi : ℂ) * Complex.I) by push_cast; ring]
  exact Complex.exp_int_mul_two_pi_mul_I t

/-- For odd `e`, `exp(πe·I) = -1`. -/
theorem exp_pi_odd {e : ℤ} (he : ¬(2 ∣ e)) :
    Complex.exp ((Real.pi : ℂ) * (e : ℂ) * Complex.I) = -1 := by
  obtain ⟨t, rfl⟩ : ∃ t, e = 2 * t + 1 := ⟨e / 2, by omega⟩
  rw [show (Real.pi : ℂ) * ((2 * t + 1 : ℤ) : ℂ) * Complex.I
      = (t : ℂ) * (2 * (Real.pi : ℂ) * Complex.I)
        + (Real.pi : ℂ) * Complex.I by push_cast; ring]
  rw [Complex.exp_add]
  rw [Complex.exp_int_mul_two_pi_mul_I, Complex.exp_pi_mul_I]
  ring

/-- The ratio `exp(πe/N·I)` is not `1` unless `2N` divides `e`. -/
theorem exp_pi_ratio_ne_one (N : ℕ) (hN : 0 < N) (e : ℤ)
    (hne : ¬((2 * (N : ℤ)) ∣ e)) :
    Complex.exp ((Real.pi : ℂ) * (e : ℂ) / (N : ℂ) * Complex.I) ≠ 1 := by
  intro hcon
  rw [Complex.exp_eq_one_iff] at hcon
  obtain ⟨n, hn⟩ := hcon
  have hNne : (N : ℂ) ≠ 0 := Nat.cast_ne_zero.mpr hN.ne'
  have h1 : (e : ℂ) / (N : ℂ) = 2 * (n : ℂ) := by
    have hpiI : ((Real.pi : ℂ) * Complex.I) ≠ 0 :=
      mul_ne_zero (Complex.ofReal_ne_zero.mpr Real.pi_ne_zero) Complex.I_ne_zero
    apply mul_right_cancel₀ hpiI
    calc (e : ℂ) / (N : ℂ) * ((Real.pi : ℂ) * Complex.I)
        = (Real.pi : ℂ) * (e : ℂ) / (N : ℂ) * Complex.I := by ring
      _ = (n : ℂ) * (2 * (Real.pi : ℂ) * Complex.I) := hn
      _ = 2 * (n : ℂ) * ((Real.pi : ℂ) * Complex.I) := by ring
  have h2 : (e : ℂ) = 2 * (n : ℂ) * (N : ℂ) := by
    field_simp at h1
    linear_combination h1
  have h3 : e = 2 * n * (N : ℤ) := by exact_mod_cast h2
  exact hne ⟨n, by rw [h3]; ring⟩

/-- A nonzero integer smaller than `2N` in absolute value is not divisible by
`2N`. -/
theorem not_dvd_of_small {e : ℤ} {N : ℕ} (h0 : e ≠ 0)
    (hb : e.natAbs < 2 * N) : ¬((2 * (N : ℤ)) ∣ e) := by
  intro hdvd
  have h1 : (2 * (N : ℤ)) ∣ (e.natAbs : ℤ) := (Int.dvd_natAbs).mpr hdvd
  have h2 : (2 * (N : ℤ)) ≤ (e.natAbs : ℤ) :=
    Int.le_of_dvd (by exact_mod_cast Int.natAbs_pos.mpr h0) h1
  omega

/-- Cosine sum at angles `kπe/N` when `2N ∣ e`: every term is `1`. -/
theorem cos_sum_dvd (N : ℕ) (hN : 0 < N) (e : ℤ) (he : (2 * (N : ℤ)) ∣ e) :
    ∑ k ∈ range N, Complex.cos ((k : ℂ) * ((Real.pi : ℂ) * (e : ℂ) / (N : ℂ)))
      = N := by
  obtain ⟨t, rfl⟩ := he
  have hNne : (N : ℂ) ≠ 0 := Nat.cast_ne_zero.mpr hN.ne'
  calc ∑ k ∈ range N, Complex.cos ((k : ℂ)
        * ((Real.pi : ℂ) * ((2 * (N : ℤ) * t : ℤ) : ℂ) / (N : ℂ)))
      = ∑ k ∈ range N, (1 : ℂ) := by
        refine Finset.sum_congr rfl fun k _ => ?_
        rw [show (k : ℂ) * ((Real.pi : ℂ) * ((2 * (N : ℤ) * t : ℤ) : ℂ) / (N : ℂ))
            = (((k : ℤ) * t : ℤ) : ℂ) * (2 * (Real.pi : ℂ)) by
          push_cast
          field_simp
          ring]
        exact Complex.cos_int_mul_two_pi ((k : ℤ) * t)
    _ = N := by simp

/-- Cosine sum at angles `kπe/N` for even `e` not divisible by `2N`: zero. -/
theorem cos_sum_even (N : ℕ) (hN : 0 < N) (e : ℤ) (he : 2 ∣ e)
    (hne : ¬((2 * (N : ℤ)) ∣ e)) :
    ∑ k ∈ range N, Complex.cos ((k : ℂ) * ((Real.pi : ℂ) * (e : ℂ) / (N : ℂ)))
      = 0 := by
  rw [cos_sum_split]
  have h1 := exp_pi_ratio_ne_one N hN e hne
  have hpow := (exp_pi_pow_N N hN e).trans (exp_pi_even he)
  have hinv : Complex.exp (-((Real.pi : ℂ) * (e : ℂ) / (N : ℂ)) * Complex.I)
      = (Complex.exp ((Real.pi : ℂ) * (e : ℂ) / (N : ℂ) * Complex.I))⁻¹ := by
    rw [← Complex.exp_neg]
    congr 1
    ring
  have h1' : (Complex.exp ((Real.pi : ℂ) * (e : ℂ) / (N : ℂ) * Complex.I))⁻¹ ≠ 1 := by
    intro hcon
    apply h1
    have := congrArg (fun z : ℂ => z⁻¹) hcon
    simpa using this
  have hpow' : ((Complex.exp ((Real.pi : ℂ) * (e : ℂ) / (N : ℂ) * Complex.I))⁻¹) ^ N
      = 1 := by
    rw [inv_pow, hpow, inv_one]
  rw [geom_vanish h1 hpow, hinv, geom_vanish h1' hpow']
  norm_num

/-- Cosine sum at angles `kπe/N` for odd `e`: exactly `1`. -/
theorem cos_sum_odd (N : ℕ) (hN : 0 < N) (e : ℤ) (he : ¬(2 ∣ e)) :
    ∑ k ∈ range N, Complex.cos ((k : ℂ) * ((Real.pi : ℂ) * (e : ℂ) / (N : ℂ)))
      = 1 := by
  rw [cos_sum_split]
  have hne : ¬((2 * (N : ℤ)) ∣ e) := by
    intro hcon
    obtain ⟨t, ht⟩ := hcon
    exact he ⟨(N : ℤ) * t, by rw [ht]; ring⟩
  have h1 := exp_pi_ratio_ne_one N hN e hne
  have hpow := (exp_pi_pow_N N hN e).trans (exp_pi_odd he)
  have hr0 : Complex.exp ((Real.pi : ℂ) * (e : ℂ) / (N : ℂ) * Complex.I) ≠ 0 :=
    Complex.exp_ne_zero _
  have hinv : Complex.exp (-((Real.pi : ℂ) * (e : ℂ) / (N : ℂ)) * Complex.I)
      = (Complex.exp ((Real.pi : ℂ) * (e : ℂ) / (N : ℂ) * Complex.I))⁻¹ := by
    rw [← Complex.exp_neg]
    congr 1
    ring
  have h1' : (Complex.exp ((Real.pi : ℂ) * (e : ℂ) / (N : ℂ) * Complex.I))⁻¹ ≠ 1 := by
    intro hcon
    apply h1
    have := congrArg (fun z : ℂ => z⁻¹) hcon
    simpa using this
  rw [geom_sum_eq h1, hinv, geom_sum_eq h1', inv_pow, hpow]
  exact odd_geom_algebra _ hr0 h1

/-- The `k = 0` term of the inverse-DCT/DCT composition. -/
theorem dct_term_zero (M a i : ℕ) :
    dctKernelInv (M + 1) a 0 * dctKernel (M + 1) 0 i
      = 1 / ((M + 1 : ℕ) : ℂ) := by
  unfold dctKernelInv dctKernel dctScale
  rw [if_pos rfl]
  simp only [Nat.cast_zero, mul_zero, zero_mul, zero_div, Real.cos_zero, mul_one]
  rw [← Complex.ofReal_mul, Real.mul_self_sqrt (by positivity)]
  push_cast
  ring

/-- A `k ≥ 1` term of the inverse-DCT/DCT composition, as a pair of cosines
at sum and difference frequencies. -/
theorem dct_term_succ (M a i u : ℕ) :
    dctKernelInv (M + 1) a (u + 1) * dctKernel (M + 1) (u + 1) i
      = (1 / ((M + 1 : ℕ) : ℂ)) *
        (Complex.cos (((u + 1 : ℕ) : ℂ)
            * ((Real.pi : ℂ) * (((a : ℤ) + i + 1 : ℤ) : ℂ) / ((M + 1 : ℕ) : ℂ)))
          + Complex.cos (((u + 1 : ℕ) : ℂ)
            * ((Real.pi : ℂ) * (((a : ℤ) - i : ℤ) : ℂ) / ((M + 1 : ℕ) : ℂ)))) := by
  unfold dctKernelInv dctKernel dctScale
  rw [if_neg (Nat.succ_ne_zero u)]
  simp only [Complex.ofReal_mul, Complex.ofReal_cos]
  have hNC : ((M + 1 : ℕ) : ℂ) ≠ 0 := Nat.cast_ne_zero.mpr (Nat.succ_ne_zero M)
  have hM1 : ((M : ℂ) + 1) ≠ 0 := by
    have h := hNC
    push_cast at h
    exact h
  have h2M : (2 * ((M : ℂ) + 1)) ≠ 0 := mul_ne_zero two_ne_zero hM1
  have hs : ((Real.sqrt (2 / ((M + 1 : ℕ) : ℝ)) : ℝ) : ℂ)
      * ((Real.sqrt (2 / ((M + 1 : ℕ) : ℝ)) : ℝ) : ℂ) = 2 / ((M + 1 : ℕ) : ℂ) := by
    rw [← Complex.ofReal_mul, Real.mul_self_sqrt (by positivity)]
    push_cast
    ring
  have hA : ((Real.pi * ((u + 1 : ℕ) : ℝ) * (2 * ((a : ℕ) : ℝ) + 1)
        / (2 * ((M + 1 : ℕ) : ℝ)) : ℝ) : ℂ)
      + ((Real.pi * ((u + 1 : ℕ) : ℝ) * (2 * ((i : ℕ) : ℝ) + 1)
        / (2 * ((M + 1 : ℕ) : ℝ)) : ℝ) : ℂ)
      = ((u + 1 : ℕ) : ℂ)
        * ((Real.pi : ℂ) * (((a : ℤ) + i + 1 : ℤ) : ℂ) / ((M + 1 : ℕ) : ℂ)) := by
    push_cast
    rw [div_add_div_same, ← mul_div_assoc, div_eq_div_iff h2M hM1]
    ring
  have hB : ((Real.pi * ((u + 1 : ℕ) : ℝ) * (2 * ((a : ℕ) : ℝ) + 1)
        / (2 * ((M + 1 : ℕ) : ℝ)) : ℝ) : ℂ)
      - ((Real.pi * ((u + 1 : ℕ) : ℝ) * (2 * ((i : ℕ) : ℝ) + 1)
        / (2 * ((M + 1 : ℕ) : ℝ)) : ℝ) : ℂ)
      = ((u + 1 : ℕ) : ℂ)
        * ((Real.pi : ℂ) * (((a : ℤ) - i : ℤ) : ℂ) / ((M + 1 : ℕ) : ℂ)) := by
    push_cast
    rw [div_sub_div_same, ← mul_div_assoc, div_eq_div_iff h2M hM1]
    ring
  calc ((Real.sqrt (2 / ((M + 1 : ℕ) : ℝ)) : ℝ) : ℂ)
        * Complex.cos ((Real.pi * ((u + 1 : ℕ) : ℝ) * (2 * ((a : ℕ) : ℝ) + 1)
            / (2 * ((M + 1 : ℕ) : ℝ)) : ℝ))
        * (((Real.sqrt (2 / ((M + 1 : ℕ) : ℝ)) : ℝ) : ℂ)
          * Complex.cos ((Real.pi * ((u + 1 : ℕ) : ℝ) * (2 * ((i : ℕ) : ℝ) + 1)
            / (2 * ((M + 1 : ℕ) : ℝ)) : ℝ)))
      = (((Real.sqrt (2 / ((M + 1 : ℕ) : ℝ)) : ℝ) : ℂ)
          * ((Real.sqrt (2 / ((M + 1 : ℕ) : ℝ)) : ℝ) : ℂ))
        * (Complex.cos ((Real.pi * ((u + 1 : ℕ) : ℝ) * (2 * ((a : ℕ) : ℝ) + 1)
            / (2 * ((M + 1 : ℕ) : ℝ)) : ℝ))
          * Complex.cos ((Real.pi * ((u + 1 : ℕ) : ℝ) * (2 * ((i : ℕ) : ℝ) + 1)
            / (2 * ((M + 1 : ℕ) : ℝ)) : ℝ))) := by ring
    _ = (2 / ((M + 1 : ℕ) : ℂ)) *
        ((Complex.cos (((Real.pi * ((u + 1 : ℕ) : ℝ) * (2 * ((a : ℕ) : ℝ) + 1)
            / (2 * ((M + 1 : ℕ) : ℝ)) : ℝ) : ℂ)
            + ((Real.pi * ((u + 1 : ℕ) : ℝ) * (2 * ((i : ℕ) : ℝ) + 1)
            / (2 * ((M + 1 : ℕ) : ℝ)) : ℝ) : ℂ))
          + Complex.cos (((Real.pi * ((u + 1 : ℕ) : ℝ) * (2 * ((a : ℕ) : ℝ) + 1)
            / (2 * ((M + 1 : ℕ) : ℝ)) : ℝ) : ℂ)
            - ((Real.pi * ((u + 1 : ℕ) : ℝ) * (2 * ((i : ℕ) : ℝ) + 1)
            / (2 * ((M + 1 : ℕ) : ℝ)) : ℝ) : ℂ))) / 2) := by
        rw [hs]
        congr 1
        rw [Complex.cos_add, Complex.cos_sub]
        ring
    _ = (1 / ((M + 1 : ℕ) : ℂ)) *
        (Complex.cos (((u + 1 : ℕ) : ℂ)
            * ((Real.pi : ℂ) * (((a : ℤ) + i + 1 : ℤ) : ℂ) / ((M + 1 : ℕ) : ℂ)))
          + Complex.cos (((u + 1 : ℕ) : ℂ)
            * ((Real.pi : ℂ) * (((a : ℤ) - i : ℤ) : ℂ) / ((M + 1 : ℕ) : ℂ)))) := by
        rw [hA, hB]
        ring

/-- Peeling the `k = 0` cosine from a shifted cosine sum. -/
theorem cos_sum_peel (M : ℕ) (z : ℂ) :
    (∑ u ∈ range M, Complex.cos (((u + 1 : ℕ) : ℂ) * z))
      = (∑ k ∈ range (M + 1), Complex.cos ((k : ℂ) * z)) - 1 := by
  rw [Finset.sum_range_succ' (fun k => Complex.cos ((k : ℂ) * z)) M]
  simp only [Nat.cast_zero, zero_mul, Complex.cos_zero]
  ring

/-- Orthogonality of the inverse-DCT and DCT kernels. -/
theorem dct_orth (N : ℕ) (hN : 0 < N) (a i : ℕ) (ha : a < N) (hi : i < N) :
    (∑ u ∈ range N, dctKernelInv N a u * dctKernel N u i)
      = if a = i then 1 else 0 := by
  obtain ⟨M, rfl⟩ : ∃ M, N = M + 1 := ⟨N - 1, by omega⟩
  have hNC : ((M + 1 : ℕ) : ℂ) ≠ 0 := Nat.cast_ne_zero.mpr (Nat.succ_ne_zero M)
  have hMC : ((M : ℂ) + 1) ≠ 0 := by
    have h := hNC
    push_cast at h
    exact h
  rw [Finset.sum_range_succ']
  rw [Finset.sum_congr rfl fun u _ => dct_term_succ M a i u]
  rw [dct_term_zero M a i]
  rw [← Finset.mul_sum, Finset.sum_add_distrib]
  rw [cos_sum_peel, cos_sum_peel]
  by_cases hai : a = i
  · subst hai
    rw [if_pos rfl]
    rw [cos_sum_odd (M + 1) (Nat.succ_pos M) ((a : ℤ) + a + 1) (by omega)]
    rw [cos_sum_dvd (M + 1) (Nat.succ_pos M) ((a : ℤ) - a) (by simp)]
    push_cast
    field_simp
  · rw [if_neg hai]
    have hne2 : (a : ℤ) - i ≠ 0 := by omega
    have hb2 : ((a : ℤ) - i).natAbs < 2 * (M + 1) := by omega
    rcases Int.even_or_odd ((a : ℤ) - i) with hev | hod
    · have h2dvd : (2 : ℤ) ∣ ((a : ℤ) - i) := by
        obtain ⟨t, ht⟩ := hev
        exact ⟨t, by omega⟩
      have hodd1 : ¬((2 : ℤ) ∣ ((a : ℤ) + i + 1)) := by
        obtain ⟨t, ht⟩ := h2dvd
        omega
      rw [cos_sum_even (M + 1) (Nat.succ_pos M) _ h2dvd
        (not_dvd_of_small hne2 hb2)]
      rw [cos_sum_odd (M + 1) (Nat.succ_pos M) _ hodd1]
      field_simp
      ring
    · have hnot2 : ¬((2 : ℤ) ∣ ((a : ℤ) - i)) := by
        obtain ⟨t, ht⟩ := hod
        omega
      have hev1 : (2 : ℤ) ∣ ((a : ℤ) + i + 1) := by
        obtain ⟨t, ht⟩ := hod
        exact ⟨(a : ℤ) - t, by omega⟩
      have hne1 : ((a : ℤ) + i + 1) ≠ 0 := by omega
      have hb1 : ((a : ℤ) + i + 1).natAbs < 2 * (M + 1) := by omega
      rw [cos_sum_odd (M + 1) (Nat.succ_pos M) _ hnot2]
      rw [cos_sum_even (M + 1) (Nat.succ_pos M) _ hev1
        (not_dvd_of_small hne1 hb1)]
      field_simp
      ring

/-- The orthonormal 2-D inverse DCT inverts the orthonormal 2-D DCT. -/
theorem idct2_dct2 (x : Tensor3) : Tensor3.TorchEq (idct2 (dct2 x)) x :=
  ⟨rfl, rfl, rfl, fun c _ a ha b hb =>
    sep_inverse dctKernelInv dctKernel dct_orth x c a b ha hb⟩

/-- C7 counterexample: selecting the Hadamard transform does not succeed.
Construction of the structured operator with `transform = "hadamard"` reaches
the final `else` branch of the transform dispatch and raises
`ValueError: Unimplemented transform: hadamard`, refuting the claim that a
Hadamard pair is provided. -/
theorem c7_counterexample :
    buildOperator ⟨1, 1, 1, 1, 1, 1, 0, "hadamard", []⟩
      = .error "ValueError: Unimplemented transform: hadamard" := by
  unfold buildOperator
  rw [show srMode ⟨1, 1, 1, 1, 1, 1, 0, "hadamard", []⟩ = .ok "equisampling" from rfl]
  simp only [Except.bind, bind]
  rw [if_neg (not_not_intro (Or.inl (by norm_num [fracPart])))]
  rfl

/-- C7 (amended): the transform adapter provides matched forward/inverse
pairs for exactly two transforms — the 2-D orthonormal Fourier transform and
the 2-D orthonormal DCT (two sequential orthonormal 1-D transforms along the
last two axes) — and each pair is genuinely inverse on every tensor; the
Hadamard transform is not provided and its selection raises a `ValueError`. -/
theorem c7_transform_pairs (x : Tensor3) :
    selectTransform "fft" = .ok (fft2, ifft2) ∧
    selectTransform "dct" = .ok (dct2, idct2) ∧
    Tensor3.TorchEq (ifft2 (fft2 x)) x ∧
    Tensor3.TorchEq (idct2 (dct2 x)) x ∧
    selectTransform "hadamard"
      = .error "ValueError: Unimplemented transform: hadamard" :=
  ⟨rfl, rfl, ifft2_fft2 x, idct2_dct2 x, rfl⟩

end

end PhaseRetrievalSpec
